import Mathlib

set_option maxRecDepth 40000
set_option maxHeartbeats 1000000

/-
Verification of the two core components of the jenkins-mcp repository:
the error-window log extractor (log_parser.py, extract_error_block) and
the job/build locator (jenkins_client.py, JenkinsClient._extract_job_path).

Strings are embedded as List Char. Python string primitives used by the
source (splitlines, lower, substring membership, find, replace, strip,
rstrip, lstrip, the two regexes, and the path component of urlparse) are
embedded as executable Lean functions below. ASCII case folding is used
for lower (the keywords involved are ASCII).
-/

def strL (s : String) : List Char := s.toList

/-! ## Embedding of log_parser.py -/

/-- The line-boundary characters recognized by Python str.splitlines. -/
def lineBreaks : List Char :=
  ['\n', '\r', Char.ofNat 0x0b, Char.ofNat 0x0c, Char.ofNat 0x1c,
   Char.ofNat 0x1d, Char.ofNat 0x1e, Char.ofNat 0x85, Char.ofNat 0x2028,
   Char.ofNat 0x2029]

def isLineBreak (c : Char) : Bool := lineBreaks.contains c

/-- Worker for splitlines: cur is the reversed current line. A CRLF pair
counts as a single boundary; a final line without terminator is kept, and
a trailing terminator does not produce an extra empty line. -/
def splitlinesGo : List Char → List Char → List (List Char)
  | cur, [] => if cur.isEmpty then [] else [cur.reverse]
  | cur, '\r' :: '\n' :: t => cur.reverse :: splitlinesGo [] t
  | cur, '\r' :: t => cur.reverse :: splitlinesGo [] t
  | cur, c :: t =>
    if isLineBreak c then cur.reverse :: splitlinesGo [] t
    else splitlinesGo (c :: cur) t

/-- Python str.splitlines. -/
def splitlinesL (s : List Char) : List (List Char) := splitlinesGo [] s

/-- Python str.lower, restricted to ASCII case folding. -/
def lowerL (s : List Char) : List Char := s.map Char.toLower

/-- Index of the first occurrence of pat in s (Python str.find semantics,
as an Option). -/
def findSub (s pat : List Char) : Option Nat :=
  match s with
  | [] => if pat.isPrefixOf [] then some 0 else none
  | c :: t => if pat.isPrefixOf (c :: t) then some 0 else (findSub t pat).map (· + 1)

/-- Python substring membership: pat in s. -/
def hasSub (s pat : List Char) : Bool := (findSub s pat).isSome

/-- One line matches when any keyword is a case-insensitive substring:
any(k.lower() in line.lower() for k in keywords). -/
def lineMatches (keywords : List (List Char)) (line : List Char) : Bool :=
  keywords.any fun k => hasSub (lowerL line) (lowerL k)

/-- The default keyword list of extract_error_block. -/
def defaultKeywords : List (List Char) :=
  [strL "ERROR", strL "Exception", strL "Traceback", strL "FAILED",
   strL "Build failed", strL "Segmentation fault"]

/-- `if j not in added_indices: extracted.append(lines[j]); added_indices.add(j)`.
Since extracted entries are exactly lines[j] for the added indices in insertion
order, the state is kept as the single insertion-ordered index list. -/
def addIdx (idxs : List Nat) (j : Nat) : List Nat :=
  if j ∈ idxs then idxs else idxs ++ [j]

/-- `for j in range(start, end): addIdx`. -/
def addRange (idxs : List Nat) (s e : Nat) : List Nat :=
  (List.range' s (e - s)).foldl addIdx idxs

/-- The outer scan `for i, line in enumerate(lines)` of extract_error_block,
accumulating the insertion-ordered set of selected line indices.
start = max(0, i-10) is the truncated subtraction i - 10;
end = min(len(lines), i + 20). -/
def accumGo (len : Nat) (keywords : List (List Char)) :
    List Nat → Nat → List (List Char) → List Nat
  | idxs, _, [] => idxs
  | idxs, i, l :: t =>
    accumGo len keywords
      (if lineMatches keywords l then addRange idxs (i - 10) (min len (i + 20)) else idxs)
      (i + 1) t

def accumIdx (lines : List (List Char)) (keywords : List (List Char)) : List Nat :=
  accumGo lines.length keywords [] 0 lines

/-- The accumulated `extracted` list of lines (values of the added indices,
in insertion order). -/
def accumL (lines : List (List Char)) (keywords : List (List Char)) : List (List Char) :=
  (accumIdx lines keywords).map fun j => lines.getD j []

/-- Python `extracted[-max_lines:]`: for max_lines = 0 this is the whole
list (since -0 is 0), otherwise the last max_lines entries. -/
def pyTailSlice (l : List (List Char)) (m : Nat) : List (List Char) :=
  if m = 0 then l else l.drop (l.length - m)

/-- Python "\n".join. -/
def joinNL : List (List Char) → List Char
  | [] => []
  | [l] => l
  | l :: l2 :: ls => l ++ '\n' :: joinNL (l2 :: ls)

/-- log_parser.extract_error_block. -/
def extract_error_block (log_text : List Char) (max_lines : Nat)
    (keywords : List (List Char)) : List Char :=
  joinNL (pyTailSlice (accumL (splitlinesL log_text) keywords) max_lines)

/-! ## Embedding of jenkins_client.py (JenkinsClient._extract_job_path) -/

/-- The Jenkins hierarchy marker segment. -/
def markerL : List Char := strL "/job/"

def lstripSlash (s : List Char) : List Char := s.dropWhile (fun c => c == '/')

def rstripSlash (s : List Char) : List Char :=
  (s.reverse.dropWhile (fun c => c == '/')).reverse

/-- Python s.strip('/'). -/
def stripSlash (s : List Char) : List Char := lstripSlash (rstripSlash s)

/-- Python str.find(':') as used by urlparse to split off the scheme. -/
def findColon : List Char → Option Nat
  | [] => none
  | c :: t => if c = ':' then some 0 else (findColon t).map (· + 1)

/-- The characters allowed in a URL scheme by urllib (letters, digits, +, -, .). -/
def isSchemeChar (c : Char) : Bool := c.isAlpha || c.isDigit || c == '+' || c == '-' || c == '.'

def headAlpha : List Char → Bool
  | [] => false
  | c :: _ => c.isAlpha

/-- urlsplit removes every tab, carriage return and newline from the URL
(the _UNSAFE_URL_BYTES_TO_REMOVE loop); three successive replace calls with
the empty replacement amount to one filter. -/
def removeUnsafe (s : List Char) : List Char :=
  s.filter fun c => !(c == '\t' || c == '\r' || c == '\n')

/-- The scheme-splitting step of urllib.parse.urlsplit: if the text before
the first colon is a valid scheme (nonempty, leading ASCII letter, scheme
characters only), it is split off and lowercased; otherwise the scheme is
empty and the input is left whole. -/
def schemeSplit (s : List Char) : List Char × List Char :=
  match findColon s with
  | none => ([], s)
  | some i =>
    if 0 < i ∧ headAlpha s = true ∧ (s.take i).all isSchemeChar = true
    then (lowerL (s.take i), s.drop (i + 1)) else ([], s)

/-- The schemes for which urlparse splits ;params off the path
(urllib.parse.uses_params, which contains the empty scheme). -/
def usesParams : List (List Char) :=
  [[], strL "ftp", strL "hdl", strL "prospero", strL "http", strL "imap",
   strL "https", strL "shttp", strL "rtsp", strL "rtsps", strL "rtspu",
   strL "sip", strL "sips", strL "mms", strL "sftp", strL "tel"]

/-- Python str.find for a single character, as an Option. -/
def idxOf (c : Char) : List Char → Option Nat
  | [] => none
  | x :: t => if x = c then some 0 else (idxOf c t).map (· + 1)

/-- Python str.find(c, start): the first index at or after start. -/
def idxOfFrom (c : Char) (s : List Char) (start : Nat) : Option Nat :=
  (idxOf c (s.drop start)).map (· + start)

/-- Python str.rfind for a single character, as an Option. -/
def rIdxOf (c : Char) (s : List Char) : Option Nat :=
  (idxOf c s.reverse).map fun i => s.length - 1 - i

/-- The path part of urllib.parse._splitparams: when the path contains a
slash, everything before the first ';' at or after the last '/' (the whole
path when that segment has no ';'); otherwise everything before the first
';'. urlparse only calls it when ';' occurs in the path, so the
none fallback of the second branch is dead code kept for totality. -/
def splitParams (p : List Char) : List Char :=
  match rIdxOf '/' p with
  | some r =>
    match idxOfFrom ';' p r with
    | none => p
    | some i => p.take i
  | none =>
    match idxOf ';' p with
    | none => p
    | some i => p.take i

/-- The path component of urllib.parse.urlparse as called by
_extract_job_path: tabs, carriage returns and newlines are removed; a valid
scheme is split off and lowercased; an authority introduced by "//" extends
to the first of '/', '?', '#'; the fragment (from the first '#') and the
query (from the first '?') are split off; finally, for schemes that use
parameters, the ;params suffix of the last path segment is removed.
Not modelled: the strip of leading control and space characters (a no-op
here, since every input this program hands to urlparse starts with "http"),
and the ValueError urlsplit raises for a bracketed authority — theorems
about the URL branch therefore restrict to inputs whose authority
(netlocOf) contains no square bracket. -/
def urlPath (s0 : List Char) : List Char :=
  let s := removeUnsafe s0
  let sc := schemeSplit s
  let r := sc.2
  let r2 := if (strL "//").isPrefixOf r
    then (r.drop 2).dropWhile (fun c => !(c == '/' || c == '?' || c == '#'))
    else r
  let p := (r2.takeWhile (fun c => !(c == '#'))).takeWhile (fun c => !(c == '?'))
  if sc.1 ∈ usesParams ∧ ';' ∈ p then splitParams p else p

/-- The authority component (netloc) of urlsplit, used to state the
bracket-free side condition under which urlsplit does not raise. -/
def netlocOf (s0 : List Char) : List Char :=
  let s := removeUnsafe s0
  let r := (schemeSplit s).2
  if (strL "//").isPrefixOf r
  then (r.drop 2).takeWhile (fun c => !(c == '/' || c == '?' || c == '#'))
  else []

def natOfDigits (ds : List Char) : Nat :=
  ds.foldl (fun a c => a * 10 + (c.toNat - 48)) 0

/-- re.search(r'/(\d+)$', path): the only possible match takes the maximal
trailing digit run when it is nonempty and preceded by '/'; on a match the
run is removed together with the slash and returned as the build number. -/
def stripBuild (p : List Char) : List Char × Option Nat :=
  let r := p.reverse
  let ds := r.takeWhile Char.isDigit
  let rest := r.dropWhile Char.isDigit
  match rest with
  | [] => (p, none)
  | c :: rest2 =>
    if c = '/' ∧ ds ≠ []
    then (rest2.reverse, some (natOfDigits ds.reverse))
    else (p, none)

/-- The greedy star (?:/job/[^/]+)* of the job regex: repeatedly consume the
marker followed by a maximal nonempty run of non-slash characters. The regex
never backtracks here because nothing follows the group, so maximal munch is
exact. Fuel bounds the recursion; any fuel at least the length of the input
gives the fixed point. -/
def pairsGo : Nat → List Char → List Char
  | 0, _ => []
  | f + 1, s =>
    if markerL.isPrefixOf s then
      match s.drop 5 with
      | [] => []
      | c :: r =>
        if c = '/' then []
        else (markerL ++ (c :: r).takeWhile (fun x => !(x == '/'))) ++
          pairsGo f ((c :: r).dropWhile (fun x => !(x == '/')))
    else []

/-- A match of re pattern /job/([^/]+(?:/job/[^/]+)*) anchored at the start of
s, returning the captured group. -/
def matchJobAt (s : List Char) : Option (List Char) :=
  if markerL.isPrefixOf s then
    match s.drop 5 with
    | [] => none
    | c :: r =>
      if c = '/' then none
      else some ((c :: r).takeWhile (fun x => !(x == '/')) ++
        pairsGo s.length ((c :: r).dropWhile (fun x => !(x == '/'))))
  else none

/-- re.search of the job regex: leftmost match. -/
def jobSearch : List Char → Option (List Char)
  | [] => none
  | c :: t =>
    match matchJobAt (c :: t) with
    | some g => some g
    | none => jobSearch t

/-- Python str.replace(old, new) for nonempty old: leftmost non-overlapping
scan. Fuel bounds the recursion; the wrapper passes the input length, which
is sufficient fuel since every step consumes at least one character. -/
def replaceGo (old new : List Char) : Nat → List Char → List Char
  | 0, s => s
  | f + 1, s =>
    match s with
    | [] => []
    | c :: t =>
      if old.isPrefixOf (c :: t)
      then new ++ replaceGo old new f ((c :: t).drop old.length)
      else c :: replaceGo old new f t

def replaceL (s old new : List Char) : List Char := replaceGo old new s.length s

/-- The error cases of _extract_job_path: noJobMarker is the
"URL does not contain job path" ValueError, cannotExtract the
"Cannot extract job path from URL" ValueError. -/
inductive LocError where
  | noJobMarker : LocError
  | cannotExtract : LocError
deriving DecidableEq

/-- JenkinsClient._extract_job_path. -/
def extract_job_path (job_url : List Char) : Except LocError (List Char × Option Nat) :=
  if (strL "http").isPrefixOf job_url then
    let path0 := rstripSlash (urlPath job_url)
    let pb := stripBuild path0
    match findSub pb.1 markerL with
    | none => Except.error LocError.noJobMarker
    | some jobStart =>
      match jobSearch (pb.1.drop jobStart) with
      | none => Except.error LocError.cannotExtract
      | some g =>
        let job_path := replaceL g markerL ['/']
        let full := pb.1.take jobStart ++ markerL ++ replaceL job_path ['/'] markerL
        Except.ok (lstripSlash full, pb.2)
  else
    Except.ok (stripSlash job_url, none)

/-! ## Generic list lemmas -/

theorem takeWhile_append_of_all {α : Type} (p : α → Bool) (a b : List α)
    (h : ∀ c ∈ a, p c = true) : (a ++ b).takeWhile p = a ++ b.takeWhile p := by
  induction a with
  | nil => rfl
  | cons c t ih =>
    have hc : p c = true := h c (by simp)
    simp only [List.cons_append, List.takeWhile_cons, hc, if_true]
    rw [ih fun x hx => h x (by simp [hx])]

theorem dropWhile_append_of_all {α : Type} (p : α → Bool) (a b : List α)
    (h : ∀ c ∈ a, p c = true) : (a ++ b).dropWhile p = b.dropWhile p := by
  induction a with
  | nil => rfl
  | cons c t ih =>
    have hc : p c = true := h c (by simp)
    simp only [List.cons_append, List.dropWhile_cons, hc]
    exact ih fun x hx => h x (by simp [hx])

theorem takeWhile_of_all {α : Type} (p : α → Bool) (a : List α)
    (h : ∀ c ∈ a, p c = true) : a.takeWhile p = a := by
  have := takeWhile_append_of_all p a [] h
  simpa using this

theorem takeWhile_cons_neg {α : Type} (p : α → Bool) (c : α) (t : List α)
    (h : p c = false) : (c :: t).takeWhile p = [] := by
  simp [List.takeWhile_cons, h]

theorem dropWhile_cons_neg {α : Type} (p : α → Bool) (c : α) (t : List α)
    (h : p c = false) : (c :: t).dropWhile p = c :: t := by
  simp [List.dropWhile_cons, h]

theorem mem_of_mem_takeWhile {α : Type} (p : α → Bool) (l : List α) :
    ∀ c ∈ l.takeWhile p, p c = true ∧ c ∈ l := by
  induction l with
  | nil => simp
  | cons x t ih =>
    intro c hc
    by_cases hx : p x = true
    · simp only [List.takeWhile_cons, hx, if_true] at hc
      rcases List.mem_cons.mp hc with h1 | h2
      · subst h1; exact ⟨hx, by simp⟩
      · rcases ih c h2 with ⟨h3, h4⟩; exact ⟨h3, by simp [h4]⟩
    · rw [List.takeWhile_cons, if_neg hx] at hc
      simp at hc

theorem head_dropWhile_neg {α : Type} (p : α → Bool) (l : List α) :
    ∀ c, (l.dropWhile p).head? = some c → p c = false := by
  induction l with
  | nil => simp
  | cons x t ih =>
    intro c hc
    by_cases hx : p x = true
    · rw [List.dropWhile_cons, if_pos hx] at hc; exact ih c hc
    · rw [List.dropWhile_cons, if_neg hx] at hc
      simp at hc
      rw [← hc]
      simpa using hx

theorem dropWhile_is_suffix {α : Type} (p : α → Bool) (l : List α) :
    ∃ t, l = t ++ l.dropWhile p ∧ ∀ c ∈ t, p c = true := by
  induction l with
  | nil => exact ⟨[], rfl, by simp⟩
  | cons x t ih =>
    by_cases hx : p x = true
    · rcases ih with ⟨u, hu, hall⟩
      refine ⟨x :: u, ?_, ?_⟩
      · rw [List.dropWhile_cons, if_pos hx]; simpa using hu
      · intro c hc
        rcases List.mem_cons.mp hc with h1 | h2
        · subst h1; exact hx
        · exact hall c h2
    · exact ⟨[], by rw [List.dropWhile_cons, if_neg hx]; simp, by simp⟩

theorem head?_append_left {α : Type} (a b : List α) (h : a ≠ []) :
    (a ++ b).head? = a.head? := by
  cases a with
  | nil => exact absurd rfl h
  | cons x t => rfl

theorem getLast?_append_right {α : Type} (a b : List α) (h : b ≠ []) :
    (a ++ b).getLast? = b.getLast? := by
  rw [← List.head?_reverse, ← List.head?_reverse, List.reverse_append]
  exact head?_append_left _ _ (by simpa using h)

theorem isPrefixOf_append_self (a b : List Char) : a.isPrefixOf (a ++ b) = true := by
  induction a with
  | nil => cases b <;> rfl
  | cons c t ih => simpa [List.isPrefixOf] using ih

theorem isPrefixOf_cons_ne (c d : Char) (x y : List Char) (h : c ≠ d) :
    (c :: x).isPrefixOf (d :: y) = false := by
  simp [List.isPrefixOf]
  intro hc
  exact absurd hc h

theorem isPrefixOf_nil_right (c : Char) (x : List Char) :
    (c :: x).isPrefixOf [] = false := rfl

theorem eq_append_of_isPrefixOf (a b : List Char) (h : a.isPrefixOf b = true) :
    b = a ++ b.drop a.length := by
  induction a generalizing b with
  | nil => simp
  | cons c t ih =>
    cases b with
    | nil => simp [List.isPrefixOf] at h
    | cons d u =>
      simp only [List.isPrefixOf, Bool.and_eq_true, beq_iff_eq] at h
      rcases h with ⟨h1, h2⟩
      subst h1
      simpa using ih u h2

theorem length_le_of_isPrefixOf (a b : List Char) (h : a.isPrefixOf b = true) :
    a.length ≤ b.length := by
  have := eq_append_of_isPrefixOf a b h
  rw [this]
  simp

theorem drop_length_append {α : Type} (a b : List α) : (a ++ b).drop a.length = b := by
  induction a with
  | nil => rfl
  | cons c t ih => simpa using ih

theorem take_length_append {α : Type} (a b : List α) : (a ++ b).take a.length = a := by
  induction a with
  | nil => rfl
  | cons c t ih => simpa using ih

/-! ## splitlines lemmas -/

theorem splitlinesGo_nil (cur : List Char) :
    splitlinesGo cur [] = if cur.isEmpty then [] else [cur.reverse] := rfl

theorem splitlinesGo_crlf (cur t : List Char) :
    splitlinesGo cur ('\r' :: '\n' :: t) = cur.reverse :: splitlinesGo [] t := rfl

theorem splitlinesGo_cr (cur t : List Char) (h : t.head? ≠ some '\n') :
    splitlinesGo cur ('\r' :: t) = cur.reverse :: splitlinesGo [] t := by
  cases t with
  | nil => rfl
  | cons c u =>
    have hc : c ≠ '\n' := by intro he; subst he; exact h rfl
    rw [splitlinesGo.eq_def]
    split
    · rename_i heq; exact absurd heq (by simp)
    · rename_i heq
      injection heq with _ h2
      injection h2 with h3 _
      exact absurd h3 hc
    · rename_i heq
      injection heq with _ h2
      rw [h2]
    · rename_i hcr heq
      injection heq with h1 _
      exact absurd h1.symm hcr

theorem splitlinesGo_break (cur : List Char) (c : Char) (t : List Char)
    (hb : isLineBreak c = true) (hc : c ≠ '\r') :
    splitlinesGo cur (c :: t) = cur.reverse :: splitlinesGo [] t := by
  rw [splitlinesGo.eq_def]
  split
  · rename_i heq; exact absurd heq (by simp)
  · rename_i heq; injection heq with h1 _; exact absurd h1 hc
  · rename_i heq; injection heq with h1 _; exact absurd h1 hc
  · rename_i heq
    injection heq with h1 h2
    subst h1; subst h2
    rw [if_pos hb]

theorem splitlinesGo_nonbreak (cur : List Char) (c : Char) (t : List Char)
    (h : isLineBreak c = false) :
    splitlinesGo cur (c :: t) = splitlinesGo (c :: cur) t := by
  have hc : c ≠ '\r' := fun he => absurd (he ▸ h) (by decide)
  rw [splitlinesGo.eq_def]
  split
  · rename_i heq; exact absurd heq (by simp)
  · rename_i heq; injection heq with h1 _; exact absurd h1 hc
  · rename_i heq; injection heq with h1 _; exact absurd h1 hc
  · rename_i heq
    injection heq with h1 h2
    subst h1; subst h2
    rw [if_neg (by simp [h])]

theorem splitlinesGo_breakfree (cur s : List Char) :
    (∀ c ∈ cur, isLineBreak c = false) →
    ∀ l ∈ splitlinesGo cur s, ∀ c ∈ l, isLineBreak c = false := by
  induction cur, s using splitlinesGo.induct with
  | case1 cur hemp =>
    intro _ l hl
    rw [splitlinesGo_nil, if_pos hemp] at hl
    simp at hl
  | case2 cur hemp =>
    intro hcur l hl
    rw [splitlinesGo_nil, if_neg hemp] at hl
    simp at hl
    subst hl
    intro c hc
    exact hcur c (by simpa using hc)
  | case3 cur t ih =>
    intro hcur l hl
    rw [splitlinesGo_crlf] at hl
    rcases List.mem_cons.mp hl with h1 | h2
    · subst h1; intro c hc; exact hcur c (by simpa using hc)
    · exact ih (by simp) l h2
  | case4 cur t hno ih =>
    intro hcur l hl
    have hh : t.head? ≠ some '\n' := by
      intro he
      cases t with
      | nil => simp at he
      | cons x u => simp at he; exact hno u (by rw [he])
    rw [splitlinesGo_cr _ _ hh] at hl
    rcases List.mem_cons.mp hl with h1 | h2
    · subst h1; intro c hc; exact hcur c (by simpa using hc)
    · exact ih (by simp) l h2
  | case5 cur c t hpair hcr hb ih =>
    intro hcur l hl
    rw [splitlinesGo_break _ _ _ hb (fun he => hcr he)] at hl
    rcases List.mem_cons.mp hl with h1 | h2
    · subst h1; intro x hx; exact hcur x (by simpa using hx)
    · exact ih (by simp) l h2
  | case6 cur c t hpair hcr hb ih =>
    intro hcur l hl
    have hb2 : isLineBreak c = false := by simpa using hb
    rw [splitlinesGo_nonbreak _ _ _ hb2] at hl
    refine ih ?_ l hl
    intro x hx
    rcases List.mem_cons.mp hx with h1 | h2
    · subst h1; exact hb2
    · exact hcur x h2

theorem splitlinesGo_append (l : List Char) (hl : ∀ c ∈ l, isLineBreak c = false) :
    ∀ cur r, splitlinesGo cur (l ++ r) = splitlinesGo (l.reverse ++ cur) r := by
  induction l with
  | nil => simp
  | cons c t ih =>
    intro cur r
    have hc : isLineBreak c = false := hl c (by simp)
    rw [List.cons_append, splitlinesGo_nonbreak _ _ _ hc,
      ih (fun x hx => hl x (by simp [hx]))]
    simp

theorem splitlinesL_of_breakfree (l : List Char) (hne : l ≠ [])
    (hl : ∀ c ∈ l, isLineBreak c = false) : splitlinesL l = [l] := by
  have := splitlinesGo_append l hl [] []
  simp only [List.append_nil] at this
  unfold splitlinesL
  rw [this, splitlinesGo_nil, if_neg (by simpa using hne)]
  simp

theorem splitlines_joinNL (L : List (List Char))
    (hbf : ∀ l ∈ L, ∀ c ∈ l, isLineBreak c = false)
    (hlast : L.getLast? ≠ some []) :
    splitlinesL (joinNL L) = L := by
  induction L with
  | nil => rfl
  | cons l L' ih =>
    cases L' with
    | nil =>
      have hne : l ≠ [] := by
        intro he; subst he; exact hlast rfl
      exact splitlinesL_of_breakfree l hne (hbf l (by simp))
    | cons l2 L'' =>
      show splitlinesL (l ++ '\n' :: joinNL (l2 :: L'')) = _
      unfold splitlinesL
      rw [splitlinesGo_append l (hbf l (by simp)) [] ('\n' :: joinNL (l2 :: L'')),
        splitlinesGo_break _ _ _ (by decide) (by decide)]
      simp only [List.append_nil, List.reverse_reverse]
      rw [show splitlinesGo [] (joinNL (l2 :: L'')) = splitlinesL (joinNL (l2 :: L'')) from rfl,
        ih (fun x hx => hbf x (by simp [hx])) (by simpa using hlast)]

theorem splitlines_joinNL_length (L : List (List Char))
    (hbf : ∀ l ∈ L, ∀ c ∈ l, isLineBreak c = false) :
    (splitlinesL (joinNL L)).length ≤ L.length := by
  induction L with
  | nil => simp [splitlinesL, splitlinesGo]
  | cons l L' ih =>
    cases L' with
    | nil =>
      show (splitlinesL l).length ≤ 1
      unfold splitlinesL
      have := splitlinesGo_append l (hbf l (by simp)) [] []
      simp only [List.append_nil] at this
      rw [this, splitlinesGo_nil]
      split <;> simp
    | cons l2 L'' =>
      show (splitlinesL (l ++ '\n' :: joinNL (l2 :: L''))).length ≤ _
      unfold splitlinesL
      rw [splitlinesGo_append l (hbf l (by simp)) [] ('\n' :: joinNL (l2 :: L'')),
        splitlinesGo_break _ _ _ (by decide) (by decide)]
      have := ih fun x hx => hbf x (by simp [hx])
      unfold splitlinesL at this
      simpa using this

/-! ## Extractor index-accumulation lemmas -/

theorem foldl_addIdx_subset (n s : Nat) (idxs : List Nat) (j : Nat) (h : j ∈ idxs) :
    j ∈ (List.range' s n).foldl addIdx idxs := by
  induction n generalizing s idxs with
  | zero => simpa using h
  | succ n ih =>
    rw [List.range'_succ, List.foldl_cons]
    exact ih _ _ (by unfold addIdx; split <;> simp [h])

theorem addRange_subset (idxs : List Nat) (s e j : Nat) (h : j ∈ idxs) :
    j ∈ addRange idxs s e := foldl_addIdx_subset _ _ _ _ h

theorem addRange_mem (idxs : List Nat) (s e j : Nat) (h : j ∈ addRange idxs s e) :
    j ∈ idxs ∨ (s ≤ j ∧ j < e) := by
  unfold addRange at h
  have key : ∀ n s idxs, j ∈ (List.range' s n).foldl addIdx idxs →
      j ∈ idxs ∨ (s ≤ j ∧ j < s + n) := by
    intro n
    induction n with
    | zero => intro s idxs h; simp at h; exact Or.inl h
    | succ n ih =>
      intro s idxs h
      rw [List.range'_succ, List.foldl_cons] at h
      rcases ih (s + 1) _ h with h1 | h2
      · unfold addIdx at h1
        split at h1
        · exact Or.inl h1
        · rcases List.mem_append.mp h1 with h3 | h4
          · exact Or.inl h3
          · simp at h4; subst h4; exact Or.inr (by omega)
      · exact Or.inr (by omega)
  rcases key (e - s) s idxs h with h1 | h2
  · exact Or.inl h1
  · exact Or.inr (by omega)

theorem addRange_mem_of (idxs : List Nat) (s e j : Nat) (h1 : s ≤ j) (h2 : j < e) :
    j ∈ addRange idxs s e := by
  unfold addRange
  have key : ∀ n s idxs, s ≤ j → j < s + n → j ∈ (List.range' s n).foldl addIdx idxs := by
    intro n
    induction n with
    | zero => intro s idxs hs hj; omega
    | succ n ih =>
      intro s idxs hs hj
      rw [List.range'_succ, List.foldl_cons]
      by_cases hsj : s = j
      · subst hsj
        refine foldl_addIdx_subset _ _ _ _ ?_
        unfold addIdx
        split
        · assumption
        · simp
      · exact ih (s + 1) _ (by omega) (by omega)
  exact key (e - s) s idxs h1 (by omega)

theorem addIdx_subset (idxs : List Nat) (k j : Nat) (h : j ∈ idxs) : j ∈ addIdx idxs k := by
  unfold addIdx; split <;> simp [h]

theorem addRange_pairwise (idxs : List Nat) (s e B : Nat)
    (hp : List.Pairwise (· < ·) idxs)
    (hb : ∀ j ∈ idxs, j < B)
    (hcomp : ∀ j, s ≤ j → j < B → j ∈ idxs) :
    List.Pairwise (· < ·) (addRange idxs s e) := by
  unfold addRange
  have key : ∀ n u js C, List.Pairwise (· < ·) js → (∀ j ∈ js, j < C) →
      (∀ j, u ≤ j → j < C → j ∈ js) →
      List.Pairwise (· < ·) ((List.range' u n).foldl addIdx js) := by
    intro n
    induction n with
    | zero => intro u js C kp _ _; simpa using kp
    | succ n ih =>
      intro u js C kp kb kcomp
      rw [List.range'_succ, List.foldl_cons]
      refine ih (u + 1) (addIdx js u) (max C (u + 1)) ?_ ?_ ?_
      · unfold addIdx
        split
        · exact kp
        · rename_i hns
          rw [List.pairwise_append]
          refine ⟨kp, by simp, ?_⟩
          intro a ha b hb2
          simp at hb2
          rw [hb2]
          have hCu : C ≤ u := by
            by_contra hlt
            exact hns (kcomp u le_rfl (by omega))
          have := kb a ha
          omega
      · intro j hj
        unfold addIdx at hj
        split at hj
        · have := kb j hj; omega
        · rcases List.mem_append.mp hj with h1 | h2
          · have := kb j h1; omega
          · simp at h2; omega
      · intro j hj1 hj2
        rcases Nat.lt_or_ge j C with hc | hc
        · exact addIdx_subset _ _ _ (kcomp j (by omega) hc)
        · omega
  exact key (e - s) s idxs B hp hb hcomp

theorem accumGo_cons (len : Nat) (kws : List (List Char)) (idxs : List Nat) (i : Nat)
    (l : List Char) (t : List (List Char)) :
    accumGo len kws idxs i (l :: t) =
      accumGo len kws
        (if lineMatches kws l = true then addRange idxs (i - 10) (min len (i + 20)) else idxs)
        (i + 1) t := rfl

theorem accumGo_subset (len : Nat) (kws : List (List Char)) (rem : List (List Char)) :
    ∀ i idxs j, j ∈ idxs → j ∈ accumGo len kws idxs i rem := by
  induction rem with
  | nil => intro i idxs j h; exact h
  | cons l t ih =>
    intro i idxs j h
    rw [accumGo_cons]
    refine ih _ _ _ ?_
    split
    · exact addRange_subset _ _ _ _ h
    · exact h

theorem getD_of_drop {α : Type} (l : List α) (d : α) :
    ∀ i x t, l.drop i = x :: t → l.getD i d = x := by
  induction l with
  | nil => intro i x t h; simp at h
  | cons a u ih =>
    intro i x t h
    cases i with
    | zero => simp at h ⊢; exact h.1
    | succ i =>
      simp only [List.drop_succ_cons] at h
      simpa using ih i x t h

theorem drop_succ_of_drop {α : Type} (l : List α) :
    ∀ i (x : α) t, l.drop i = x :: t → l.drop (i + 1) = t := by
  induction l with
  | nil => intro i x t h; simp at h
  | cons a u ih =>
    intro i x t h
    cases i with
    | zero => simp at h ⊢; exact h.2
    | succ i =>
      simp only [List.drop_succ_cons] at h ⊢
      exact ih i x t h

theorem accumGo_sound (len : Nat) (kws : List (List Char)) (lines : List (List Char)) :
    ∀ rem i0 idxs j, lines.drop i0 = rem →
    (∀ k ∈ idxs, ∃ i, i < lines.length ∧ lineMatches kws (lines.getD i []) = true ∧
      i - 10 ≤ k ∧ k < min len (i + 20)) →
    j ∈ accumGo len kws idxs i0 rem →
    ∃ i, i < lines.length ∧ lineMatches kws (lines.getD i []) = true ∧
      i - 10 ≤ j ∧ j < min len (i + 20) := by
  intro rem
  induction rem with
  | nil => intro i0 idxs j _ hinv h; exact hinv j h
  | cons l t ih =>
    intro i0 idxs j hdrop hinv h
    rw [accumGo_cons] at h
    refine ih (i0 + 1) _ j (drop_succ_of_drop _ _ _ _ hdrop) ?_ h
    intro k hk
    split at hk
    · rename_i hm
      rcases addRange_mem _ _ _ _ hk with h1 | h2
      · exact hinv k h1
      · refine ⟨i0, ?_, ?_, by omega, by omega⟩
        · by_contra hge
          rw [List.drop_eq_nil_of_le (by omega)] at hdrop
          exact absurd hdrop (by simp)
        · rwa [getD_of_drop lines [] i0 l t hdrop]
    · exact hinv k hk

theorem accumGo_complete (len : Nat) (kws : List (List Char)) (lines : List (List Char)) :
    ∀ rem i0 idxs i j, lines.drop i0 = rem → i0 ≤ i → i < lines.length →
    lineMatches kws (lines.getD i []) = true → i - 10 ≤ j → j < min len (i + 20) →
    j ∈ accumGo len kws idxs i0 rem := by
  intro rem
  induction rem with
  | nil =>
    intro i0 idxs i j hdrop hle hlt _ _ _
    have : lines.length ≤ i0 := by
      by_contra hge
      rw [show lines.drop i0 = lines.drop i0 from rfl] at hdrop
      have : lines.drop i0 ≠ [] := by
        simp [List.drop_eq_nil_iff]
        omega
      exact this hdrop
    omega
  | cons l t ih =>
    intro i0 idxs i j hdrop hle hlt hm hj1 hj2
    rw [accumGo_cons]
    by_cases hii : i0 = i
    · subst hii
      rw [getD_of_drop lines [] i0 l t hdrop] at hm
      rw [if_pos hm]
      exact accumGo_subset _ _ _ _ _ _ (addRange_mem_of _ _ _ _ hj1 hj2)
    · exact ih (i0 + 1) _ i j (drop_succ_of_drop _ _ _ _ hdrop) (by omega) hlt hm hj1 hj2

theorem accumGo_pairwise (len : Nat) (kws : List (List Char)) :
    ∀ rem i idxs B, List.Pairwise (· < ·) idxs → (∀ j ∈ idxs, j < B) →
    (∀ j, i - 10 ≤ j → j < B → j ∈ idxs) → B ≤ i + 19 → B ≤ len →
    List.Pairwise (· < ·) (accumGo len kws idxs i rem) := by
  intro rem
  induction rem with
  | nil => intro i idxs B hp _ _ _ _; exact hp
  | cons l t ih =>
    intro i idxs B hp hb hcomp hB1 hB2
    rw [accumGo_cons]
    split
    · refine ih (i + 1) _ (max B (min len (i + 20))) ?_ ?_ ?_ (by omega) (by omega)
      · exact addRange_pairwise _ _ _ B hp hb hcomp
      · intro j hj
        rcases addRange_mem _ _ _ _ hj with h1 | h2
        · have := hb j h1; omega
        · omega
      · intro j hj1 hj2
        rcases Nat.lt_or_ge j B with hc | hc
        · exact addRange_subset _ _ _ _ (hcomp j (by omega) hc)
        · exact addRange_mem_of _ _ _ _ (by omega) (by omega)
    · exact ih (i + 1) _ B hp hb (fun j h1 h2 => hcomp j (by omega) h2) (by omega) hB2

/-- The accumulated index sequence is always strictly ascending: windows have
monotone bounds in the match position and matches are scanned left to right,
so every newly discovered index exceeds all previously recorded ones. -/
theorem accum_pairwise (lines : List (List Char)) (kws : List (List Char)) :
    List.Pairwise (· < ·) (accumIdx lines kws) := by
  unfold accumIdx
  exact accumGo_pairwise _ kws lines 0 [] 0 (by simp) (by simp) (by omega) (by omega) (by omega)

theorem accum_sound (lines : List (List Char)) (kws : List (List Char)) (j : Nat)
    (h : j ∈ accumIdx lines kws) :
    ∃ i, i < lines.length ∧ lineMatches kws (lines.getD i []) = true ∧
      i - 10 ≤ j ∧ j < min lines.length (i + 20) :=
  accumGo_sound _ kws lines lines 0 [] j (by simp) (by simp) h

theorem accum_complete (lines : List (List Char)) (kws : List (List Char)) (i j : Nat)
    (hi : i < lines.length) (hm : lineMatches kws (lines.getD i []) = true)
    (h1 : i - 10 ≤ j) (h2 : j < min lines.length (i + 20)) :
    j ∈ accumIdx lines kws :=
  accumGo_complete _ kws lines lines 0 [] i j (by simp) (by omega) hi hm h1 h2

theorem accum_lt_length (lines : List (List Char)) (kws : List (List Char)) (j : Nat)
    (h : j ∈ accumIdx lines kws) : j < lines.length := by
  rcases accum_sound lines kws j h with ⟨i, _, _, _, h4⟩
  omega

theorem accumGo_no_match (len : Nat) (kws : List (List Char)) :
    ∀ rem i idxs, (∀ l ∈ rem, lineMatches kws l = false) →
    accumGo len kws idxs i rem = idxs := by
  intro rem
  induction rem with
  | nil => intro i idxs _; rfl
  | cons l t ih =>
    intro i idxs h
    rw [accumGo_cons, if_neg (by simp [h l (by simp)])]
    exact ih _ _ fun x hx => h x (by simp [hx])

theorem getD_mem_of_lt {α : Type} (l : List α) (d : α) :
    ∀ j, j < l.length → l.getD j d ∈ l := by
  induction l with
  | nil => intro j h; simp at h
  | cons a t ih =>
    intro j h
    cases j with
    | zero => simp
    | succ j => simpa using Or.inr (ih j (by simpa using h))

theorem accumL_breakfree (text : List Char) (kws : List (List Char)) :
    ∀ l ∈ accumL (splitlinesL text) kws, ∀ c ∈ l, isLineBreak c = false := by
  intro l hl
  unfold accumL at hl
  rcases List.mem_map.mp hl with ⟨j, hj, rfl⟩
  have hjl : j < (splitlinesL text).length := accum_lt_length _ _ _ hj
  have hmem : (splitlinesL text).getD j [] ∈ splitlinesL text := getD_mem_of_lt _ _ _ hjl
  exact splitlinesGo_breakfree [] text (by simp) _ hmem

/-- C2 (amended): for every matching line i, the whole clipped window
[i - 10, min len (i + 20)) — that is, the 10 preceding lines, the line
itself, and the 19 following lines — is contained in the accumulated
index sequence. -/
theorem c2_thm (text : List Char) (kws : List (List Char)) (i j : Nat)
    (hi : i < (splitlinesL text).length)
    (hm : lineMatches kws ((splitlinesL text).getD i []) = true)
    (h1 : i - 10 ≤ j) (h2 : j < min (splitlinesL text).length (i + 20)) :
    j ∈ accumIdx (splitlinesL text) kws :=
  accum_complete _ kws i j hi hm h1 h2

theorem c2_witness : 0 ∈ accumIdx (splitlinesL (strL "ERROR")) defaultKeywords :=
  c2_thm (strL "ERROR") defaultKeywords 0 0 (by decide) (by decide) (by decide) (by decide)

def c2Text : List Char :=
  strL "ERROR\na1\na2\na3\na4\na5\na6\na7\na8\na9\na10\na11\na12\na13\na14\na15\na16\na17\na18\na19\na20\na21"

/-- C2 (counterexample): line 0 of this 22-line log matches, line 20 (its
20th following line) exists, yet neither index 20 nor its line value
enter the accumulated sequence: the window covers only 19 lines after a
match (range(i-10, i+20) excludes i+20). -/
theorem c2_cex :
    lineMatches defaultKeywords ((splitlinesL c2Text).getD 0 []) = true ∧
    (splitlinesL c2Text).length = 22 ∧
    20 ∉ accumIdx (splitlinesL c2Text) defaultKeywords ∧
    strL "a20" ∉ accumL (splitlinesL c2Text) defaultKeywords := by decide

def c3Line (i : Nat) : List Char :=
  if i = 25 then strL "Exception" else [Char.ofNat (65 + i / 10), Char.ofNat (65 + i % 10)]

def c3Text : List Char := joinNL ((List.range 50).map c3Line)

/-- C3: in a 50-line log whose only match ("Exception") is line 25, the
extractor returns exactly lines 15 through 44, once each, in order. -/
theorem c3_thm :
    extract_error_block c3Text 1000 defaultKeywords =
      joinNL ((List.range' 15 30).map c3Line) := by decide

/-- C4 (counterexample): with max_lines = 0 the slice extracted[-0:] is the
whole accumulated list, so the output has one line, not at most zero. -/
theorem c4_cex :
    ¬ (splitlinesL (extract_error_block (strL "ERROR") 0 defaultKeywords)).length ≤ 0 := by
  decide

/-- C4 (amended): for every positive max_lines the output has at most
max_lines lines and equals the join of exactly the last max_lines entries
of the pre-truncation accumulated sequence (all of it when shorter). -/
theorem c4_thm (text : List Char) (kws : List (List Char)) (m : Nat) (hm : 0 < m) :
    (splitlinesL (extract_error_block text m kws)).length ≤ m ∧
    extract_error_block text m kws =
      joinNL ((accumL (splitlinesL text) kws).drop
        ((accumL (splitlinesL text) kws).length - m)) := by
  have heq : extract_error_block text m kws =
      joinNL ((accumL (splitlinesL text) kws).drop
        ((accumL (splitlinesL text) kws).length - m)) := by
    unfold extract_error_block pyTailSlice
    rw [if_neg (by omega)]
  refine ⟨?_, heq⟩
  rw [heq]
  have hbf : ∀ l ∈ (accumL (splitlinesL text) kws).drop
      ((accumL (splitlinesL text) kws).length - m), ∀ c ∈ l, isLineBreak c = false :=
    fun l hl => accumL_breakfree text kws l (List.mem_of_mem_drop hl)
  have h1 := splitlines_joinNL_length _ hbf
  have h2 := List.length_drop ((accumL (splitlinesL text) kws).length - m)
    (accumL (splitlinesL text) kws)
  omega

theorem c4_witness :
    (splitlinesL (extract_error_block (strL "ERROR") 5 defaultKeywords)).length ≤ 5 ∧
    extract_error_block (strL "ERROR") 5 defaultKeywords =
      joinNL ((accumL (splitlinesL (strL "ERROR")) defaultKeywords).drop
        ((accumL (splitlinesL (strL "ERROR")) defaultKeywords).length - 5)) :=
  c4_thm (strL "ERROR") defaultKeywords 5 (by decide)

/-- C6: when no line of the log contains any keyword (case-insensitively),
the extractor returns the empty string. -/
theorem c6_thm (text : List Char) (m : Nat) (kws : List (List Char))
    (h : ∀ l ∈ splitlinesL text, lineMatches kws l = false) :
    extract_error_block text m kws = [] := by
  have hidx : accumIdx (splitlinesL text) kws = [] := by
    unfold accumIdx
    exact accumGo_no_match _ _ _ _ _ h
  unfold extract_error_block accumL
  rw [hidx]
  unfold pyTailSlice
  split <;> simp [joinNL]

theorem c6_witness : extract_error_block (strL "hello\nworld") 1000 [strL "ERROR"] = [] :=
  c6_thm _ _ _ (by decide)

/-- C7 (counterexample, proving the negation of the claim): there is no log
and keyword set for which the accumulated order deviates from strictly
ascending original-index order. -/
theorem c7_cex : ¬ ∃ (text : List Char) (kws : List (List Char)),
    ¬ List.Pairwise (· < ·) (accumIdx (splitlinesL text) kws) := by
  rintro ⟨text, kws, h⟩
  exact h (accum_pairwise _ _)

/-- C7 (amended): the accumulated index sequence is always strictly
ascending; overlapping windows never interleave out of index order because
window bounds are monotone in the match position. -/
theorem c7_thm (text : List Char) (kws : List (List Char)) :
    List.Pairwise (· < ·) (accumIdx (splitlinesL text) kws) :=
  accum_pairwise _ _

/-! ## Strictly sorted list utilities -/

theorem pairwise_getD_le (J : List Nat) (h : List.Pairwise (· < ·) J) (p q : Nat)
    (hpq : p ≤ q) (hq : q < J.length) : J.getD p 0 + (q - p) ≤ J.getD q 0 := by
  obtain ⟨d, rfl⟩ : ∃ d, q = p + d := ⟨q - p, by omega⟩
  clear hpq
  induction d with
  | zero => simp
  | succ d ih =>
    have h1 := ih (by omega)
    have h2 : J.getD (p + d) 0 < J.getD (p + d + 1) 0 := by
      rw [List.getD_eq_getElem J 0 (show p + d < J.length by omega),
        List.getD_eq_getElem J 0 (show p + d + 1 < J.length by omega)]
      exact List.pairwise_iff_get.mp h ⟨p + d, by omega⟩ ⟨p + d + 1, by omega⟩
        (by simp [Fin.lt_def])
    have h3 : p + (d + 1) = p + d + 1 := rfl
    rw [h3]
    omega

theorem pairwise_eq_of_mem (l : List Nat) :
    ∀ r, List.Pairwise (· < ·) l → List.Pairwise (· < ·) r →
    (∀ x, x ∈ l ↔ x ∈ r) → l = r := by
  induction l with
  | nil =>
    intro r _ _ hm
    cases r with
    | nil => rfl
    | cons b r' => exact absurd ((hm b).mpr (by simp)) (by simp)
  | cons a l' ih =>
    intro r hl hr hm
    cases r with
    | nil => exact absurd ((hm a).mp (by simp)) (by simp)
    | cons b r' =>
      rw [List.pairwise_cons] at hl hr
      have hab : a = b := by
        rcases List.mem_cons.mp ((hm a).mp (by simp)) with h1 | h2
        · exact h1
        · rcases List.mem_cons.mp ((hm b).mpr (by simp)) with h3 | h4
          · have := hr.1 a h2
            omega
          · have := hr.1 a h2
            have := hl.1 b h4
            omega
      subst hab
      have htail : l' = r' := by
        refine ih r' hl.2 hr.2 fun x => ⟨fun hx => ?_, fun hx => ?_⟩
        · rcases List.mem_cons.mp ((hm x).mp (by simp [hx])) with h1 | h2
          · have := hl.1 x hx; omega
          · exact h2
        · rcases List.mem_cons.mp ((hm x).mpr (by simp [hx])) with h1 | h2
          · have := hr.1 x hx; omega
          · exact h2
      rw [htail]

theorem map_getD_range {α : Type} (l : List α) (d : α) :
    (List.range l.length).map (fun i => l.getD i d) = l := by
  induction l with
  | nil => rfl
  | cons a t ih =>
    rw [show (a :: t).length = t.length + 1 from rfl, List.range_succ_eq_map,
      List.map_cons, List.map_map]
    have hc : ((fun i => (a :: t).getD i d) ∘ (· + 1)) = fun i => t.getD i d := by
      funext i
      rfl
    rw [hc, ih]
    rfl

theorem accumL_getD (lines : List (List Char)) (kws : List (List Char)) (q : Nat)
    (hq : q < (accumIdx lines kws).length) :
    (accumL lines kws).getD q [] = lines.getD ((accumIdx lines kws).getD q 0) [] := by
  unfold accumL
  rw [List.getD_eq_getElem?_getD, List.getElem?_map, List.getElem?_eq_getElem hq,
    List.getD_eq_getElem _ 0 hq]
  simp

/-- C8 (amended): when the accumulated sequence was not truncated
(its length is at most max_lines) and the excerpt does not end in an empty
line, re-extracting the excerpt is the identity. -/
theorem c8_thm (t : List Char) (m : Nat) (hm : 0 < m)
    (hlen : (accumIdx (splitlinesL t) defaultKeywords).length ≤ m)
    (hlast : (accumL (splitlinesL t) defaultKeywords).getLast? ≠ some []) :
    extract_error_block (extract_error_block t m defaultKeywords) m defaultKeywords =
      extract_error_block t m defaultKeywords := by
  have hLJlen : (accumL (splitlinesL t) defaultKeywords).length
      = (accumIdx (splitlinesL t) defaultKeywords).length := by
    unfold accumL
    exact List.length_map _ _
  have hnotrunc : pyTailSlice (accumL (splitlinesL t) defaultKeywords) m
      = accumL (splitlinesL t) defaultKeywords := by
    unfold pyTailSlice
    rw [if_neg (by omega)]
    have hz : (accumL (splitlinesL t) defaultKeywords).length - m = 0 := by omega
    rw [hz]
    exact List.drop_zero _
  have he : extract_error_block t m defaultKeywords
      = joinNL (accumL (splitlinesL t) defaultKeywords) := by
    unfold extract_error_block
    rw [hnotrunc]
  rw [he]
  by_cases hnil : accumL (splitlinesL t) defaultKeywords = []
  · rw [hnil]
    show extract_error_block [] m defaultKeywords = joinNL []
    unfold extract_error_block
    have h1 : accumL (splitlinesL []) defaultKeywords = [] := rfl
    rw [h1]
    unfold pyTailSlice
    split
    · rfl
    · simp
  · have hbfL : ∀ l ∈ accumL (splitlinesL t) defaultKeywords, ∀ c ∈ l,
        isLineBreak c = false := accumL_breakfree t defaultKeywords
    have hsplit : splitlinesL (joinNL (accumL (splitlinesL t) defaultKeywords))
        = accumL (splitlinesL t) defaultKeywords :=
      splitlines_joinNL _ hbfL hlast
    have hpair : List.Pairwise (· < ·) (accumIdx (splitlinesL t) defaultKeywords) :=
      accum_pairwise _ _
    have hcover : ∀ q, q < (accumL (splitlinesL t) defaultKeywords).length →
        q ∈ accumIdx (accumL (splitlinesL t) defaultKeywords) defaultKeywords := by
      intro q hq
      have hqJ : q < (accumIdx (splitlinesL t) defaultKeywords).length := by omega
      have hgd : (accumIdx (splitlinesL t) defaultKeywords).getD q 0
          = (accumIdx (splitlinesL t) defaultKeywords).get ⟨q, hqJ⟩ := by
        rw [List.getD_eq_getElem _ 0 hqJ, List.get_eq_getElem]
      have hjmem : (accumIdx (splitlinesL t) defaultKeywords).getD q 0
          ∈ accumIdx (splitlinesL t) defaultKeywords := by
        rw [hgd]
        exact List.get_mem _ q hqJ
      rcases accum_sound (splitlinesL t) defaultKeywords _ hjmem with ⟨i, hi, him, hij1, hij2⟩
      have hiJ : i ∈ accumIdx (splitlinesL t) defaultKeywords :=
        accum_complete (splitlinesL t) defaultKeywords i i hi him (by omega) (by omega)
      rcases List.mem_iff_get.mp hiJ with ⟨p, hp⟩
      have hpJ : p.val < (accumIdx (splitlinesL t) defaultKeywords).length := p.isLt
      have hpd : (accumIdx (splitlinesL t) defaultKeywords).getD p.val 0 = i := by
        rw [List.getD_eq_getElem _ 0 hpJ, ← List.get_eq_getElem]
        exact hp
      have hwindow : p.val ≤ q + 10 ∧ q < p.val + 20 := by
        rcases Nat.lt_or_ge q p.val with hqp | hpq
        · have := pairwise_getD_le _ hpair q p.val (by omega) hpJ
          rw [hpd] at this
          omega
        · have := pairwise_getD_le _ hpair p.val q hpq hqJ
          rw [hpd] at this
          omega
      have hmatch : lineMatches defaultKeywords
          ((accumL (splitlinesL t) defaultKeywords).getD p.val []) = true := by
        rw [accumL_getD _ _ p.val hpJ, hpd]
        exact him
      exact accum_complete _ defaultKeywords p.val q (by omega) hmatch (by omega) (by omega)
    have hrange : accumIdx (accumL (splitlinesL t) defaultKeywords) defaultKeywords
        = List.range (accumL (splitlinesL t) defaultKeywords).length := by
      refine pairwise_eq_of_mem _ _ (accum_pairwise _ _) (List.pairwise_lt_range _)
        fun x => ⟨fun hx => ?_, fun hx => ?_⟩
      · exact List.mem_range.mpr (accum_lt_length _ _ x hx)
      · exact hcover x (List.mem_range.mp hx)
    have haccL : accumL (accumL (splitlinesL t) defaultKeywords) defaultKeywords
        = accumL (splitlinesL t) defaultKeywords := by
      unfold accumL
      rw [show accumIdx ((accumIdx (splitlinesL t) defaultKeywords).map
            fun j => (splitlinesL t).getD j []) defaultKeywords
          = List.range ((accumIdx (splitlinesL t) defaultKeywords).map
            fun j => (splitlinesL t).getD j []).length from hrange]
      exact map_getD_range _ []
    show extract_error_block (joinNL (accumL (splitlinesL t) defaultKeywords)) m
        defaultKeywords = joinNL (accumL (splitlinesL t) defaultKeywords)
    unfold extract_error_block
    rw [hsplit, haccL, hnotrunc]

/-- C8 (counterexample): for the log "ERROR\n\n" the excerpt is "ERROR\n"
(two lines, the second empty, and well within max_lines with all matching
lines preserved), but re-extracting drops the trailing empty line: joining
with newlines is not injective, so the excerpt is not a fixed point. -/
theorem c8_cex :
    extract_error_block (extract_error_block (strL "ERROR\n\n") 1000 defaultKeywords) 1000
        defaultKeywords ≠
      extract_error_block (strL "ERROR\n\n") 1000 defaultKeywords := by decide

theorem c8_witness :
    extract_error_block (extract_error_block (strL "ERROR\nA") 1000 defaultKeywords) 1000
        defaultKeywords =
      extract_error_block (strL "ERROR\nA") 1000 defaultKeywords :=
  c8_thm (strL "ERROR\nA") 1000 (by decide) (by decide) (by decide)

/-! ## Locator theorems -/

/-- C5 (amended): every input that does not start with the literal prefix
"http" is treated as an already-canonical job path and returned with its
leading and trailing slashes stripped and no build number, even when
segments are numeric. -/
theorem c5_thm (s : List Char) (h : (strL "http").isPrefixOf s = false) :
    extract_job_path s = Except.ok (stripSlash s, none) := by
  unfold extract_job_path
  rw [if_neg (by simp [h])]

theorem c5_witness : extract_job_path (strL "a/7") = Except.ok (strL "a/7", none) :=
  c5_thm (strL "a/7") (by decide)

/-- C5 (counterexample): "httpd/logs" is a bare path (it has no URL scheme;
there is no colon at all), yet because it starts with the literal "http"
the code takes the URL branch and raises the "URL does not contain job
path" ValueError instead of returning ("httpd/logs", None). -/
theorem c5_cex : extract_job_path (strL "httpd/logs") = Except.error LocError.noJobMarker := by
  rfl

/-- C10 (amended): for every input starting with "http" whose parsed path,
after stripping a trailing numeric build segment, contains no "/job/"
marker, the locator fails with the NoJobMarker error and returns no
partial result. The bracket-free-authority hypothesis keeps the input
inside the domain where urlparse returns instead of raising the
Invalid IPv6 URL error, which this embedding does not model. -/
theorem c10_thm (s : List Char) (h1 : (strL "http").isPrefixOf s = true)
    (h2 : hasSub (stripBuild (rstripSlash (urlPath s))).1 markerL = false)
    (h3 : '[' ∉ netlocOf s ∧ ']' ∉ netlocOf s) :
    extract_job_path s = Except.error LocError.noJobMarker := by
  unfold extract_job_path
  rw [if_pos h1]
  have hnone : findSub (stripBuild (rstripSlash (urlPath s))).1 markerL = none := by
    unfold hasSub at h2
    cases hf : findSub (stripBuild (rstripSlash (urlPath s))).1 markerL
    · rfl
    · rw [hf] at h2
      simp at h2
  simp only [hnone]

theorem c10_witness :
    extract_job_path (strL "https://h/no-job-marker/") = Except.error LocError.noJobMarker :=
  c10_thm (strL "https://h/no-job-marker/") (by decide) (by decide)
    ⟨by decide, by decide⟩

/-- C10 (counterexample): "ftp://h/no-job-marker/" starts with a URL scheme
and its path has no marker, but the code's URL test is startswith("http"),
so this input takes the bare-path branch and succeeds instead of failing
with NoJobMarker. -/
theorem c10_cex :
    extract_job_path (strL "ftp://h/no-job-marker/") =
      Except.ok (strL "ftp://h/no-job-marker", none) := by rfl

/-! ## str.replace lemmas -/

theorem replaceGo_nil (old new : List Char) (f : Nat) : replaceGo old new f [] = [] := by
  cases f <;> rfl

theorem replaceGo_fuel (old new : List Char) (hold : old ≠ []) :
    ∀ f g s, s.length ≤ f → s.length ≤ g → replaceGo old new f s = replaceGo old new g s := by
  intro f
  induction f with
  | zero =>
    intro g s hf _
    have hs : s = [] := List.eq_nil_of_length_eq_zero (Nat.le_zero.mp hf)
    subst hs
    rw [replaceGo_nil, replaceGo_nil]
  | succ f ih =>
    intro g s hf hg
    cases s with
    | nil => rw [replaceGo_nil, replaceGo_nil]
    | cons c t =>
      cases g with
      | zero => simp at hg
      | succ g =>
        show (if old.isPrefixOf (c :: t) = true
            then new ++ replaceGo old new f ((c :: t).drop old.length)
            else c :: replaceGo old new f t) =
          (if old.isPrefixOf (c :: t) = true
            then new ++ replaceGo old new g ((c :: t).drop old.length)
            else c :: replaceGo old new g t)
        have holdlen : 1 ≤ old.length := List.length_pos.mpr hold
        split
        · congr 1
          apply ih
          · simp only [List.length_drop, List.length_cons]
            simp at hf
            omega
          · simp only [List.length_drop, List.length_cons]
            simp at hg
            omega
        · congr 1
          apply ih
          · simp at hf; omega
          · simp at hg; omega

theorem replaceL_nil (old new : List Char) : replaceL [] old new = [] := rfl

theorem replaceL_cons_pass (oh : Char) (ot new : List Char) (c : Char) (t : List Char)
    (h : c ≠ oh) : replaceL (c :: t) (oh :: ot) new = c :: replaceL t (oh :: ot) new := by
  unfold replaceL
  show (if (oh :: ot).isPrefixOf (c :: t) = true
      then new ++ replaceGo (oh :: ot) new t.length ((c :: t).drop (oh :: ot).length)
      else c :: replaceGo (oh :: ot) new t.length t) = _
  rw [if_neg (by rw [isPrefixOf_cons_ne oh c ot t (Ne.symm h)]; simp)]

theorem replaceL_append_pass (a b : List Char) (oh : Char) (ot new : List Char)
    (h : ∀ c ∈ a, c ≠ oh) :
    replaceL (a ++ b) (oh :: ot) new = a ++ replaceL b (oh :: ot) new := by
  induction a with
  | nil => rfl
  | cons c t ih =>
    rw [List.cons_append, replaceL_cons_pass oh ot new c (t ++ b) (h c (by simp)),
      ih fun x hx => h x (by simp [hx])]
    rfl

theorem replaceL_hit (old b new : List Char) (hold : old ≠ []) :
    replaceL (old ++ b) old new = new ++ replaceL b old new := by
  cases hco : old with
  | nil => exact absurd hco hold
  | cons oh ot =>
    unfold replaceL
    have hlen : ((oh :: ot) ++ b).length = (ot ++ b).length + 1 := by simp
    rw [hlen]
    show (if (oh :: ot).isPrefixOf (oh :: (ot ++ b)) = true
        then new ++ replaceGo (oh :: ot) new (ot ++ b).length
          ((oh :: (ot ++ b)).drop (oh :: ot).length)
        else oh :: replaceGo (oh :: ot) new (ot ++ b).length (ot ++ b)) = _
    rw [if_pos (by have := isPrefixOf_append_self (oh :: ot) b; simpa using this)]
    have hdrop : (oh :: (ot ++ b)).drop (oh :: ot).length = b := by
      have := drop_length_append (oh :: ot) b
      simpa using this
    rw [hdrop]
    congr 1
    exact replaceGo_fuel (oh :: ot) new (by simp) (ot ++ b).length b.length b
      (by simp) le_rfl

/-! ## Collapse and expand of the marker-joined job path -/

/-- The canonical marker-joined form: /job/n1/job/n2... -/
def jobJoin (names : List (List Char)) : List Char :=
  (names.map fun n => markerL ++ n).flatten

theorem marker_cons : markerL = '/' :: strL "job/" := rfl

theorem jobJoin_cons (n : List Char) (tl : List (List Char)) :
    jobJoin (n :: tl) = markerL ++ (n ++ jobJoin tl) := by
  unfold jobJoin
  simp

theorem collapse_names (tl : List (List Char)) :
    ∀ n1, (∀ c ∈ n1, c ≠ '/') → (∀ n ∈ tl, n ≠ [] ∧ ∀ c ∈ n, c ≠ '/') →
    replaceL (n1 ++ jobJoin tl) markerL ['/'] =
      n1 ++ (tl.map fun n => '/' :: n).flatten := by
  induction tl with
  | nil =>
    intro n1 h1 _
    show replaceL (n1 ++ jobJoin []) markerL ['/'] = n1 ++ []
    rw [show jobJoin [] = [] from rfl, marker_cons,
      replaceL_append_pass n1 [] '/' (strL "job/") ['/'] h1, replaceL_nil]
  | cons m tl' ih =>
    intro n1 h1 htl
    rw [jobJoin_cons, marker_cons,
      replaceL_append_pass n1 _ '/' (strL "job/") ['/'] h1,
      replaceL_hit ('/' :: strL "job/") (m ++ jobJoin tl') ['/'] (by simp),
      ← marker_cons,
      ih m (htl m (by simp)).2 fun x hx => htl x (by simp [hx])]
    simp

theorem expand_names (tl : List (List Char)) :
    ∀ n1, (∀ c ∈ n1, c ≠ '/') → (∀ n ∈ tl, n ≠ [] ∧ ∀ c ∈ n, c ≠ '/') →
    replaceL (n1 ++ (tl.map fun n => '/' :: n).flatten) ['/'] markerL =
      n1 ++ jobJoin tl := by
  induction tl with
  | nil =>
    intro n1 h1 _
    show replaceL (n1 ++ []) ['/'] markerL = n1 ++ jobJoin []
    rw [replaceL_append_pass n1 [] '/' [] markerL h1, replaceL_nil]
    rfl
  | cons m tl' ih =>
    intro n1 h1 htl
    rw [show ((m :: tl').map fun n => '/' :: n).flatten =
        ['/'] ++ (m ++ (tl'.map fun n => '/' :: n).flatten) by simp,
      replaceL_append_pass n1 (['/'] ++ (m ++ (tl'.map fun n => '/' :: n).flatten))
        '/' [] markerL h1,
      replaceL_hit ['/'] (m ++ (tl'.map fun n => '/' :: n).flatten) markerL (by simp),
      ih m (htl m (by simp)).2 fun x hx => htl x (by simp [hx]),
      jobJoin_cons]

/-! ## Job regex lemmas -/

theorem pairsGo_nil (f : Nat) : pairsGo f [] = [] := by
  cases f <;> rfl

theorem pairsGo_not_marker (f : Nat) (s : List Char)
    (h : markerL.isPrefixOf s = false) : pairsGo (f + 1) s = [] := by
  unfold pairsGo
  rw [if_neg (by simp [h])]

theorem pairsGo_marker (f : Nat) (x : List Char) :
    pairsGo (f + 1) (markerL ++ x) =
      match x with
      | [] => []
      | c :: r =>
        if c = '/' then []
        else (markerL ++ (c :: r).takeWhile fun y => !(y == '/')) ++
          pairsGo f ((c :: r).dropWhile fun y => !(y == '/')) := by
  conv_lhs => rw [pairsGo]
  rw [if_pos (isPrefixOf_append_self markerL x)]
  have hd : (markerL ++ x).drop 5 = x := drop_length_append markerL x
  rw [hd]

theorem takeWhile_names (n : List Char) (tl : List (List Char)) (hn : ∀ c ∈ n, c ≠ '/') :
    (n ++ jobJoin tl).takeWhile (fun y => !(y == '/')) = n ∧
    (n ++ jobJoin tl).dropWhile (fun y => !(y == '/')) = jobJoin tl := by
  have hall : ∀ c ∈ n, (fun y => !(y == '/')) c = true := by
    intro c hc
    simp [hn c hc]
  constructor
  · rw [takeWhile_append_of_all _ n (jobJoin tl) hall]
    cases tl with
    | nil => simp [jobJoin]
    | cons m tl' =>
      rw [jobJoin_cons, marker_cons, List.cons_append,
        takeWhile_cons_neg _ '/' _ (by simp)]
      simp
  · rw [dropWhile_append_of_all _ n (jobJoin tl) hall]
    cases tl with
    | nil => simp [jobJoin]
    | cons m tl' =>
      rw [jobJoin_cons, marker_cons, List.cons_append,
        dropWhile_cons_neg _ '/' _ (by simp)]

theorem pairsGo_join (names : List (List Char))
    (h : ∀ n ∈ names, n ≠ [] ∧ ∀ c ∈ n, c ≠ '/') :
    ∀ f, (jobJoin names).length ≤ f → pairsGo f (jobJoin names) = jobJoin names := by
  induction names with
  | nil =>
    intro f _
    rw [show jobJoin [] = [] from rfl, pairsGo_nil]
  | cons n tl ih =>
    intro f hf
    have h5 : markerL.length = 5 := rfl
    rw [jobJoin_cons] at hf ⊢
    rw [List.length_append, h5, List.length_append] at hf
    obtain ⟨f', rfl⟩ : ∃ f', f = f' + 1 := ⟨f - 1, by omega⟩
    rw [pairsGo_marker f' (n ++ jobJoin tl)]
    obtain ⟨c, nt, rfl⟩ : ∃ c nt, n = c :: nt := by
      cases hcn : n with
      | nil => exact absurd hcn (h n (by simp)).1
      | cons c nt => exact ⟨c, nt, rfl⟩
    have hnc : ∀ x ∈ c :: nt, x ≠ '/' := (h (c :: nt) (by simp)).2
    show (if c = '/' then [] else _) = _
    rw [if_neg (hnc c (by simp))]
    have htw := takeWhile_names (c :: nt) tl hnc
    rw [show (c :: nt) ++ jobJoin tl = c :: (nt ++ jobJoin tl) from rfl] at htw
    simp only [List.append_eq]
    rw [htw.1, htw.2, ih (fun x hx => h x (by simp [hx])) f' (by simp at hf; omega)]
    simp

theorem matchJobAt_marker (x : List Char) :
    matchJobAt (markerL ++ x) =
      match x with
      | [] => none
      | c :: r =>
        if c = '/' then none
        else some ((c :: r).takeWhile (fun y => !(y == '/')) ++
          pairsGo (markerL ++ x).length ((c :: r).dropWhile fun y => !(y == '/'))) := by
  conv_lhs => rw [matchJobAt]
  rw [if_pos (isPrefixOf_append_self markerL x)]
  have hd : (markerL ++ x).drop 5 = x := drop_length_append markerL x
  rw [hd]

theorem jobSearch_cons (c : Char) (t : List Char) :
    jobSearch (c :: t) =
      match matchJobAt (c :: t) with
      | some g => some g
      | none => jobSearch t := rfl

theorem jobSearch_join (n : List Char) (tl : List (List Char))
    (h : ∀ x ∈ n :: tl, x ≠ [] ∧ ∀ c ∈ x, c ≠ '/') :
    jobSearch (jobJoin (n :: tl)) = some (n ++ jobJoin tl) := by
  rw [jobJoin_cons]
  have hmm : matchJobAt (markerL ++ (n ++ jobJoin tl)) = some (n ++ jobJoin tl) := by
    rw [matchJobAt_marker]
    obtain ⟨c, nt, rfl⟩ : ∃ c nt, n = c :: nt := by
      cases hcn : n with
      | nil => exact absurd hcn (h n (by simp)).1
      | cons c nt => exact ⟨c, nt, rfl⟩
    have hnc : ∀ x ∈ c :: nt, x ≠ '/' := (h (c :: nt) (by simp)).2
    show (if c = '/' then none else _) = _
    rw [if_neg (hnc c (by simp))]
    have htw := takeWhile_names (c :: nt) tl hnc
    rw [show (c :: nt) ++ jobJoin tl = c :: (nt ++ jobJoin tl) from rfl] at htw
    simp only [List.append_eq]
    rw [htw.1, htw.2,
      pairsGo_join tl (fun x hx => h x (by simp [hx])) _
        (by rw [List.length_append, List.length_append]; omega)]
  rw [marker_cons, List.cons_append, jobSearch_cons, ← List.cons_append, ← marker_cons, hmm]

/-! ## find lemmas -/

theorem nil_isPrefixOf (x : List Char) : ([] : List Char).isPrefixOf x = true := by
  cases x <;> rfl

theorem hasSub_of_isPrefixOf (x pat : List Char) (h : pat.isPrefixOf x = true) :
    hasSub x pat = true := by
  unfold hasSub
  cases x with
  | nil => unfold findSub; rw [if_pos h]; rfl
  | cons c t => unfold findSub; rw [if_pos h]; rfl

theorem hasSub_cons (c : Char) (t pat : List Char) (h : hasSub t pat = true) :
    hasSub (c :: t) pat = true := by
  unfold hasSub at h ⊢
  show (if pat.isPrefixOf (c :: t) = true then some 0
    else (findSub t pat).map (· + 1)).isSome = true
  split
  · rfl
  · simpa using h

theorem isPrefixOf_take (pat : List Char) :
    ∀ s k, pat.isPrefixOf s = true → pat.length ≤ k →
    pat.isPrefixOf (s.take k) = true := by
  induction pat with
  | nil => intro s k _ _; exact nil_isPrefixOf _
  | cons p pt ih =>
    intro s k h hk
    cases s with
    | nil => simp [List.isPrefixOf] at h
    | cons c t =>
      simp only [List.isPrefixOf, Bool.and_eq_true, beq_iff_eq] at h
      obtain ⟨f', rfl⟩ : ∃ k', k = k' + 1 := ⟨k - 1, by simp at hk; omega⟩
      rw [List.take_succ_cons]
      simp only [List.isPrefixOf, Bool.and_eq_true, beq_iff_eq]
      exact ⟨h.1, ih t f' h.2 (by simp at hk; omega)⟩

theorem hasSub_take_of_prefix_drop (pat : List Char) :
    ∀ (i : Nat) (s : List Char) (k : Nat),
    pat.isPrefixOf (s.drop i) = true → i + pat.length ≤ k →
    hasSub (s.take k) pat = true := by
  intro i
  induction i with
  | zero =>
    intro s k h hk
    simp only [List.drop_zero] at h
    exact hasSub_of_isPrefixOf _ _ (isPrefixOf_take pat s k h (by omega))
  | succ i ih =>
    intro s k h hk
    cases s with
    | nil =>
      simp only [List.drop_nil] at h
      have hpat : pat = [] := by
        cases pat with
        | nil => rfl
        | cons p pt => simp [List.isPrefixOf] at h
      subst hpat
      exact hasSub_of_isPrefixOf _ _ (nil_isPrefixOf _)
    | cons c t =>
      obtain ⟨k', rfl⟩ : ∃ k', k = k' + 1 := ⟨k - 1, by omega⟩
      rw [List.take_succ_cons]
      exact hasSub_cons c _ pat (ih t k' (by simpa using h) (by omega))

theorem take_append_add {α : Type} (a b : List α) (n : Nat) :
    (a ++ b).take (a.length + n) = a ++ b.take n := by
  induction a with
  | nil => simp
  | cons c t ih =>
    have h1 : (c :: t).length + n = (t.length + n) + 1 := by simp; omega
    rw [h1, List.cons_append, List.take_succ_cons, ih]
    rfl

theorem findSub_prepend (pat : List Char) (hpat : pat ≠ []) :
    ∀ a b, (∀ i, i < a.length → pat.isPrefixOf ((a ++ b).drop i) = false) →
    pat.isPrefixOf b = true → findSub (a ++ b) pat = some a.length := by
  intro a
  induction a with
  | nil =>
    intro b _ hb
    cases b with
    | nil =>
      cases pat with
      | nil => exact absurd rfl hpat
      | cons p pt => simp [List.isPrefixOf] at hb
    | cons c t =>
      show findSub (c :: t) pat = some 0
      unfold findSub
      rw [if_pos hb]
  | cons c t ih =>
    intro b h hb
    show findSub (c :: (t ++ b)) pat = some (t.length + 1)
    unfold findSub
    have h0 : pat.isPrefixOf (c :: (t ++ b)) = false := by
      have := h 0 (by simp)
      simpa using this
    rw [if_neg (by simp [h0])]
    rw [ih b (fun i hi => by
      have := h (i + 1) (by simp; omega)
      simpa using this) hb]
    rfl

/-- The first occurrence of the marker in pre ++ /job/name... is exactly at
position pre.length, provided the marker does not occur in pre ++ "/job"
(i.e. it neither occurs inside the prefix nor straddles its boundary). -/
theorem findSub_marker (pre tail2 : List Char)
    (hpreJ : hasSub (pre ++ strL "/job") markerL = false) :
    findSub (pre ++ (markerL ++ tail2)) markerL = some pre.length := by
  rw [show pre ++ (markerL ++ tail2) = pre ++ markerL ++ tail2 by simp]
  rw [show pre ++ markerL ++ tail2 = pre ++ (markerL ++ tail2) by simp]
  refine findSub_prepend markerL (by rw [marker_cons]; simp) pre (markerL ++ tail2)
    (fun i hi => ?_) (isPrefixOf_append_self _ _)
  cases hv : markerL.isPrefixOf ((pre ++ (markerL ++ tail2)).drop i)
  · rfl
  · exfalso
    have hk : hasSub ((pre ++ (markerL ++ tail2)).take (pre.length + 4)) markerL = true := by
      refine hasSub_take_of_prefix_drop markerL i _ (pre.length + 4) hv ?_
      rw [show markerL.length = 5 from rfl]
      omega
    rw [take_append_add pre (markerL ++ tail2) 4] at hk
    rw [show (markerL ++ tail2).take 4 = strL "/job" by rw [marker_cons]; rfl] at hk
    rw [hk] at hpreJ
    exact absurd hpreJ (by simp)

/-! ## urlparse path lemmas -/

theorem isSchemeChar_ne_colon (c : Char) (h : isSchemeChar c = true) : c ≠ ':' := by
  intro he
  subst he
  exact absurd h (by decide)

theorem findColon_append (a b : List Char) (ha : ∀ c ∈ a, c ≠ ':') :
    findColon (a ++ ':' :: b) = some a.length := by
  induction a with
  | nil =>
    show findColon (':' :: b) = some 0
    unfold findColon
    rw [if_pos rfl]
  | cons c t ih =>
    show findColon (c :: (t ++ ':' :: b)) = some (t.length + 1)
    unfold findColon
    rw [if_neg (ha c (by simp)), ih fun x hx => ha x (by simp [hx])]
    rfl

theorem headAlpha_append (sch x : List Char) (h : sch ≠ []) :
    headAlpha (sch ++ x) = headAlpha sch := by
  cases sch with
  | nil => exact absurd rfl h
  | cons c t => rfl

theorem isSchemeChar_clean (c : Char) (h : isSchemeChar c = true) :
    c ≠ '\t' ∧ c ≠ '\r' ∧ c ≠ '\n' := by
  refine ⟨?_, ?_, ?_⟩ <;> intro he <;> subst he <;> exact absurd h (by decide)

theorem removeUnsafe_of_clean (s : List Char)
    (h : ∀ c ∈ s, c ≠ '\t' ∧ c ≠ '\r' ∧ c ≠ '\n') :
    removeUnsafe s = s := by
  unfold removeUnsafe
  refine List.filter_eq_self.mpr fun c hc => ?_
  obtain ⟨h1, h2, h3⟩ := h c hc
  simp [h1, h2, h3]

theorem schemeSplit_decomp (sch rest : List Char) (hne : sch ≠ [])
    (hh : headAlpha sch = true) (hs : ∀ c ∈ sch, isSchemeChar c = true) :
    schemeSplit (sch ++ ':' :: rest) = (lowerL sch, rest) := by
  unfold schemeSplit
  rw [findColon_append sch rest fun c hc => isSchemeChar_ne_colon c (hs c hc)]
  dsimp only
  rw [if_pos ?_]
  · rw [take_length_append sch (':' :: rest)]
    rw [show sch ++ ':' :: rest = (sch ++ [':']) ++ rest by simp]
    rw [show sch.length + 1 = (sch ++ [':']).length by simp]
    rw [drop_length_append (sch ++ [':']) rest]
  · refine ⟨List.length_pos.mpr hne, ?_, ?_⟩
    · rw [show sch ++ ':' :: rest = sch ++ (':' :: rest) from rfl,
        headAlpha_append sch (':' :: rest) hne]
      exact hh
    · rw [take_length_append sch (':' :: rest)]
      exact List.all_eq_true.mpr fun c hc => hs c hc

theorem urlPath_decomp (sch host rest : List Char)
    (hne : sch ≠ []) (hh : headAlpha sch = true)
    (hs : ∀ c ∈ sch, isSchemeChar c = true)
    (hhost : ∀ c ∈ host, c ≠ '/' ∧ c ≠ '?' ∧ c ≠ '#' ∧
      c ≠ '\t' ∧ c ≠ '\r' ∧ c ≠ '\n')
    (hrest0 : rest.head? = some '/')
    (hrestC : ∀ c ∈ rest, c ≠ '?' ∧ c ≠ '#' ∧ c ≠ ';' ∧
      c ≠ '\t' ∧ c ≠ '\r' ∧ c ≠ '\n') :
    urlPath (sch ++ strL "://" ++ host ++ rest) = rest := by
  obtain ⟨rest', rfl⟩ : ∃ rest', rest = '/' :: rest' := by
    cases rest with
    | nil => simp at hrest0
    | cons c t => simp at hrest0; exact ⟨t, by rw [hrest0]⟩
  have hclean : removeUnsafe (sch ++ strL "://" ++ host ++ ('/' :: rest')) =
      sch ++ strL "://" ++ host ++ ('/' :: rest') := by
    refine removeUnsafe_of_clean _ fun c hc => ?_
    rcases List.mem_append.mp hc with hc1 | hc4
    rcases List.mem_append.mp hc1 with hc2 | hc3
    rcases List.mem_append.mp hc2 with hcA | hcB
    · exact isSchemeChar_clean c (hs c hcA)
    · have hcB' : c ∈ [':', '/', '/'] := hcB
      fin_cases hcB' <;> refine ⟨?_, ?_, ?_⟩ <;> decide
    · obtain ⟨_, _, _, k4, k5, k6⟩ := hhost c hc3
      exact ⟨k4, k5, k6⟩
    · obtain ⟨_, _, _, k4, k5, k6⟩ := hrestC c hc4
      exact ⟨k4, k5, k6⟩
  unfold urlPath
  dsimp only
  rw [hclean]
  rw [show sch ++ strL "://" ++ host ++ ('/' :: rest') =
    sch ++ ':' :: ('/' :: '/' :: (host ++ ('/' :: rest'))) by simp [strL]]
  rw [schemeSplit_decomp sch ('/' :: '/' :: (host ++ ('/' :: rest'))) hne hh hs]
  dsimp only
  have hdbl : (strL "//").isPrefixOf ('/' :: '/' :: (host ++ ('/' :: rest'))) = true := by
    rw [show strL "//" = ['/', '/'] from rfl]
    simp [List.isPrefixOf, nil_isPrefixOf]
  rw [if_pos hdbl]
  rw [show ('/' :: '/' :: (host ++ ('/' :: rest'))).drop 2 = host ++ ('/' :: rest') from rfl]
  rw [dropWhile_append_of_all _ host ('/' :: rest')
    (fun c hc => by simp [(hhost c hc).1, (hhost c hc).2.1, (hhost c hc).2.2.1])]
  rw [dropWhile_cons_neg _ '/' rest' (by simp)]
  rw [takeWhile_of_all _ ('/' :: rest') fun c hc => by simp [(hrestC c hc).2.1]]
  rw [takeWhile_of_all _ ('/' :: rest') fun c hc => by simp [(hrestC c hc).1]]
  rw [if_neg ?_]
  rintro ⟨_, hsem⟩
  exact (hrestC ';' hsem).2.2.1 rfl

/-! ## stripBuild lemmas -/

theorem isDigit_ne_slash (c : Char) (h : c.isDigit = true) : c ≠ '/' := by
  intro he
  subst he
  exact absurd h (by decide)

theorem stripBuild_digits (X d : List Char) (hd : d ≠ [])
    (hdig : ∀ c ∈ d, c.isDigit = true) :
    stripBuild (X ++ '/' :: d) = (X, some (natOfDigits d)) := by
  unfold stripBuild
  dsimp only
  rw [show (X ++ '/' :: d).reverse = d.reverse ++ '/' :: X.reverse by simp]
  rw [takeWhile_append_of_all Char.isDigit d.reverse ('/' :: X.reverse)
    (fun c hc => hdig c (List.mem_reverse.mp hc))]
  rw [takeWhile_cons_neg Char.isDigit '/' X.reverse (by decide)]
  rw [dropWhile_append_of_all Char.isDigit d.reverse ('/' :: X.reverse)
    (fun c hc => hdig c (List.mem_reverse.mp hc))]
  rw [dropWhile_cons_neg Char.isDigit '/' X.reverse (by decide)]
  dsimp only
  rw [if_pos ⟨rfl, by simpa using hd⟩]
  simp

theorem stripBuild_no_digit_suffix (Z lastN : List Char) (hne : lastN ≠ [])
    (hns : ∀ c ∈ lastN, c ≠ '/') (hnd : ¬ ∀ c ∈ lastN, c.isDigit = true) :
    stripBuild (Z ++ lastN) = (Z ++ lastN, none) := by
  unfold stripBuild
  dsimp only
  rw [show (Z ++ lastN).reverse = lastN.reverse ++ Z.reverse by simp]
  have hu : lastN.reverse.dropWhile Char.isDigit ≠ [] := by
    intro he
    refine hnd fun c hc => ?_
    have := (List.dropWhile_eq_nil_iff).mp he c (List.mem_reverse.mpr hc)
    simpa using this
  obtain ⟨c, u', hcu⟩ : ∃ c u', lastN.reverse.dropWhile Char.isDigit = c :: u' := by
    cases hx : lastN.reverse.dropWhile Char.isDigit with
    | nil => exact absurd hx hu
    | cons c u' => exact ⟨c, u', rfl⟩
  have hcd : Char.isDigit c = false := by
    refine head_dropWhile_neg Char.isDigit lastN.reverse c ?_
    rw [hcu]
    rfl
  have hcs : c ≠ '/' := by
    rcases dropWhile_is_suffix Char.isDigit lastN.reverse with ⟨tk, htk, _⟩
    have hcm : c ∈ lastN.reverse := by
      rw [htk, hcu]
      simp
    exact hns c (List.mem_reverse.mp hcm)
  rw [show lastN.reverse = lastN.reverse.takeWhile Char.isDigit ++
      lastN.reverse.dropWhile Char.isDigit from
      (List.takeWhile_append_dropWhile Char.isDigit lastN.reverse).symm]
  rw [List.append_assoc]
  rw [takeWhile_append_of_all Char.isDigit (lastN.reverse.takeWhile Char.isDigit) _
    (fun x hx => (mem_of_mem_takeWhile Char.isDigit lastN.reverse x hx).1)]
  rw [dropWhile_append_of_all Char.isDigit (lastN.reverse.takeWhile Char.isDigit) _
    (fun x hx => (mem_of_mem_takeWhile Char.isDigit lastN.reverse x hx).1)]
  rw [hcu]
  rw [show (c :: u') ++ Z.reverse = c :: (u' ++ Z.reverse) from rfl]
  rw [takeWhile_cons_neg Char.isDigit c _ hcd, dropWhile_cons_neg Char.isDigit c _ hcd]
  dsimp only
  rw [if_neg (by simp [hcs])]

/-! ## rstrip and jobJoin structure lemmas -/

theorem rstripSlash_append_slash (x : List Char) :
    rstripSlash (x ++ ['/']) = rstripSlash x := by
  unfold rstripSlash
  rw [List.reverse_append]
  rfl

theorem getLast?_mem (x : List Char) (c : Char) (h : x.getLast? = some c) : c ∈ x := by
  rw [← List.head?_reverse] at h
  have : c ∈ x.reverse := by
    cases hx : x.reverse with
    | nil => rw [hx] at h; simp at h
    | cons a t => rw [hx] at h; simp at h; simp [h]
  exact List.mem_reverse.mp this

theorem rstripSlash_getLast (x : List Char) (c : Char) (h : x.getLast? = some c)
    (hc : c ≠ '/') : rstripSlash x = x := by
  unfold rstripSlash
  rw [← List.head?_reverse] at h
  cases hx : x.reverse with
  | nil => rw [hx] at h; simp at h
  | cons a t =>
    rw [hx] at h
    simp at h
    rw [dropWhile_cons_neg _ a t (by simp [h, hc])]
    rw [← hx, List.reverse_reverse]

theorem jobJoin_ne_nil (n : List Char) (tl : List (List Char)) : jobJoin (n :: tl) ≠ [] := by
  rw [jobJoin_cons, marker_cons]
  simp

theorem jobJoin_append (a b : List (List Char)) :
    jobJoin (a ++ b) = jobJoin a ++ jobJoin b := by
  unfold jobJoin
  simp

theorem getLast_jobJoin (names : List (List Char)) :
    ∀ n1, n1 ≠ [] → (∀ c ∈ n1, c ≠ '/') →
    (∀ n ∈ names, n ≠ [] ∧ ∀ c ∈ n, c ≠ '/') →
    ∃ c, (n1 ++ jobJoin names).getLast? = some c ∧ c ≠ '/' := by
  induction names with
  | nil =>
    intro n1 hne hns _
    rw [show jobJoin [] = [] from rfl, List.append_nil]
    obtain ⟨c, hc⟩ : ∃ c, n1.getLast? = some c := by
      cases hx : n1.getLast? with
      | none => exact absurd (List.getLast?_eq_none_iff.mp hx) hne
      | some c => exact ⟨c, rfl⟩
    exact ⟨c, hc, hns c (getLast?_mem n1 c hc)⟩
  | cons m tl ih =>
    intro n1 _ _ hv
    rcases ih m (hv m (by simp)).1 (hv m (by simp)).2
      (fun x hx => hv x (by simp [hx])) with ⟨c, hc, hcs⟩
    refine ⟨c, ?_, hcs⟩
    rw [jobJoin_cons,
      getLast?_append_right n1 (markerL ++ (m ++ jobJoin tl))
        (by rw [marker_cons]; simp),
      getLast?_append_right markerL (m ++ jobJoin tl)
        (by
          intro he
          have hm0 := List.append_eq_nil.mp he
          exact (hv m (by simp)).1 hm0.1)]
    exact hc

theorem mem_jobJoin (names : List (List Char)) (c : Char) (h : c ∈ jobJoin names) :
    c ∈ markerL ∨ ∃ n ∈ names, c ∈ n := by
  unfold jobJoin at h
  rw [List.mem_flatten] at h
  rcases h with ⟨l, hl, hc⟩
  rcases List.mem_map.mp hl with ⟨n, hn, rfl⟩
  rcases List.mem_append.mp hc with h1 | h2
  · exact Or.inl h1
  · exact Or.inr ⟨n, hn, h2⟩

theorem isDigit_clean (c : Char) (h : c.isDigit = true) :
    c ≠ '?' ∧ c ≠ '#' ∧ c ≠ ';' ∧ c ≠ '\t' ∧ c ≠ '\r' ∧ c ≠ '\n' := by
  refine ⟨?_, ?_, ?_, ?_, ?_, ?_⟩ <;> intro he <;> subst he <;> exact absurd h (by decide)

/-- The optional trailing numeric build segment of a URL path. -/
def buildSeg : Option (List Char) → List Char
  | some d => '/' :: d
  | none => []

/-- C1 (amended): for every input starting with "http" — scheme "http"
followed by further scheme characters, then ://host and a path made of an
opaque mount prefix, marker/name pairs, an optional trailing numeric build
segment and an optional trailing slash — the locator returns the canonical
path that re-prepends the prefix and re-inserts the /job/ marker before
every name (with leading slashes stripped), together with that build
number. The host excludes the bracket characters on which urlsplit raises,
and prefix, host and names exclude the characters urlparse treats
specially: the query, fragment and parameter separators and the removed
tab, carriage return and newline bytes. -/
theorem c1_thm (ext host pre : List Char) (names : List (List Char))
    (bopt : Option (List Char)) (slash : Bool)
    (hext : ∀ c ∈ ext, isSchemeChar c = true)
    (hhost : ∀ c ∈ host, c ≠ '/' ∧ c ≠ '?' ∧ c ≠ '#' ∧ c ≠ '[' ∧ c ≠ ']' ∧
      c ≠ '\t' ∧ c ≠ '\r' ∧ c ≠ '\n')
    (hpre : ∀ c ∈ pre, c ≠ '?' ∧ c ≠ '#' ∧ c ≠ ';' ∧
      c ≠ '\t' ∧ c ≠ '\r' ∧ c ≠ '\n')
    (hpre0 : pre = [] ∨ pre.head? = some '/')
    (hpreJ : hasSub (pre ++ strL "/job") markerL = false)
    (hne : names ≠ [])
    (hnames : ∀ n ∈ names, n ≠ [] ∧ ∀ c ∈ n, c ≠ '/' ∧ c ≠ '?' ∧ c ≠ '#' ∧
      c ≠ ';' ∧ c ≠ '\t' ∧ c ≠ '\r' ∧ c ≠ '\n')
    (hbuild : match bopt with
      | some d => d ≠ [] ∧ ∀ c ∈ d, c.isDigit = true
      | none => ¬ ∀ c ∈ names.getLastD [], c.isDigit = true) :
    extract_job_path (strL "http" ++ ext ++ strL "://" ++ host ++
        (pre ++ jobJoin names ++ buildSeg bopt ++
          (if slash then ['/'] else []))) =
      Except.ok (lstripSlash (pre ++ jobJoin names), bopt.map natOfDigits) := by
  have hslash : ∀ n ∈ names, n ≠ [] ∧ ∀ c ∈ n, c ≠ '/' :=
    fun n hn => ⟨(hnames n hn).1, fun c hc => ((hnames n hn).2 c hc).1⟩
  obtain ⟨n1, tl, rfl⟩ : ∃ n1 tl, names = n1 :: tl := by
    cases hcn : names with
    | nil => exact absurd hcn hne
    | cons n1 tl => exact ⟨n1, tl, rfl⟩
  set bseg := buildSeg bopt with hbseg
  set sseg := (if slash then (['/'] : List Char) else []) with hsseg
  set core := pre ++ jobJoin (n1 :: tl) ++ bseg with hcore
  set pathR := core ++ sseg with hpathR
  -- the last character of core is never '/'
  have hcorelast : ∃ c, core.getLast? = some c ∧ c ≠ '/' := by
    rw [hcore, hbseg]
    cases hb : bopt with
    | some d =>
      rw [hb] at hbuild
      dsimp only [buildSeg]
      rcases hbuild with ⟨hd, hdig⟩
      obtain ⟨cd, hcd⟩ : ∃ cd, d.getLast? = some cd := by
        cases hx : d.getLast? with
        | none => exact absurd (List.getLast?_eq_none_iff.mp hx) hd
        | some cd => exact ⟨cd, rfl⟩
      refine ⟨cd, ?_, isDigit_ne_slash cd (hdig cd (getLast?_mem d cd hcd))⟩
      rw [getLast?_append_right _ ('/' :: d) (by simp)]
      rw [show ('/' :: d : List Char) = ['/'] ++ d from rfl,
        getLast?_append_right ['/'] d hd]
      exact hcd
    | none =>
      dsimp only [buildSeg]
      rcases getLast_jobJoin tl n1 (hslash n1 (by simp)).1 (hslash n1 (by simp)).2
        (fun x hx => hslash x (by simp [hx])) with ⟨c, hc, hcs⟩
      refine ⟨c, ?_, hcs⟩
      rw [List.append_nil]
      rw [getLast?_append_right pre (jobJoin (n1 :: tl)) (jobJoin_ne_nil n1 tl)]
      rw [jobJoin_cons, getLast?_append_right markerL (n1 ++ jobJoin tl)
        (by intro he; exact (hslash n1 (by simp)).1 (List.append_eq_nil.mp he).1)]
      exact hc
  have hrstrip : rstripSlash pathR = core := by
    rcases hcorelast with ⟨c, hc, hcs⟩
    rw [hpathR, hsseg]
    cases slash with
    | true =>
      rw [if_pos rfl, rstripSlash_append_slash]
      exact rstripSlash_getLast core c hc hcs
    | false =>
      rw [if_neg (by simp), List.append_nil]
      exact rstripSlash_getLast core c hc hcs
  have hstrip : stripBuild core = (pre ++ jobJoin (n1 :: tl), bopt.map natOfDigits) := by
    rw [hcore, hbseg]
    cases hb : bopt with
    | some d =>
      rw [hb] at hbuild
      dsimp only [buildSeg]
      rcases hbuild with ⟨hd, hdig⟩
      rw [stripBuild_digits (pre ++ jobJoin (n1 :: tl)) d hd hdig]
      rfl
    | none =>
      rw [hb] at hbuild
      dsimp only [buildSeg]
      have hnd : ¬ ∀ c ∈ (n1 :: tl).getLastD [], c.isDigit = true := hbuild
      have hnn : (n1 :: tl) ≠ [] := by simp
      obtain ⟨initN, lastN, hsplitN⟩ : ∃ initN lastN, n1 :: tl = initN ++ [lastN] := by
        refine ⟨(n1 :: tl).dropLast, (n1 :: tl).getLast hnn, ?_⟩
        rw [List.dropLast_append_getLast hnn]
      have hlastD : (n1 :: tl).getLastD [] = lastN := by
        rw [hsplitN, List.getLastD_eq_getLast?,
          getLast?_append_right initN [lastN] (by simp)]
        rfl
      rw [hlastD] at hnd
      have hlastmem : lastN ∈ n1 :: tl := by rw [hsplitN]; simp
      rw [List.append_nil, hsplitN, jobJoin_append]
      rw [show jobJoin [lastN] = markerL ++ lastN by
        rw [show ([lastN] : List (List Char)) = lastN :: [] from rfl, jobJoin_cons]
        simp [jobJoin]]
      rw [show pre ++ (jobJoin initN ++ (markerL ++ lastN)) =
        (pre ++ jobJoin initN ++ markerL) ++ lastN by simp]
      rw [stripBuild_no_digit_suffix (pre ++ jobJoin initN ++ markerL) lastN
        (hslash lastN hlastmem).1 (hslash lastN hlastmem).2 hnd]
      rw [show (pre ++ jobJoin initN ++ markerL) ++ lastN =
        pre ++ (jobJoin initN ++ (markerL ++ lastN)) by simp]
      rfl
  have hfind : findSub (pre ++ jobJoin (n1 :: tl)) markerL = some pre.length := by
    rw [jobJoin_cons]
    exact findSub_marker pre (n1 ++ jobJoin tl) hpreJ
  have hsearch : jobSearch ((pre ++ jobJoin (n1 :: tl)).drop pre.length) =
      some (n1 ++ jobJoin tl) := by
    rw [drop_length_append pre (jobJoin (n1 :: tl))]
    exact jobSearch_join n1 tl fun x hx => hslash x hx
  have hstart : (strL "http").isPrefixOf (strL "http" ++ ext ++ strL "://" ++ host ++
      pathR) = true := by
    rw [show strL "http" ++ ext ++ strL "://" ++ host ++ pathR =
      strL "http" ++ (ext ++ (strL "://" ++ (host ++ pathR))) by simp]
    exact isPrefixOf_append_self _ _
  have hurl : urlPath (strL "http" ++ ext ++ strL "://" ++ host ++ pathR) = pathR := by
    rw [show strL "http" ++ ext ++ strL "://" ++ host ++ pathR =
      (strL "http" ++ ext) ++ strL "://" ++ host ++ pathR by simp]
    refine urlPath_decomp (strL "http" ++ ext) host pathR (by simp [strL]) rfl ?_ ?_ ?_ ?_
    · intro c hc
      rcases List.mem_append.mp hc with h1 | h2
      · have h4 : c ∈ ['h', 't', 't', 'p'] := h1
        fin_cases h4 <;> decide
      · exact hext c h2
    · intro c hc
      obtain ⟨a1, a2, a3, _, _, a4, a5, a6⟩ := hhost c hc
      exact ⟨a1, a2, a3, a4, a5, a6⟩
    · rw [hpathR, hcore]
      rcases hpre0 with h0 | h0
      · rw [h0]
        simp only [List.nil_append]
        rw [show jobJoin (n1 :: tl) ++ bseg ++ sseg =
          jobJoin (n1 :: tl) ++ (bseg ++ sseg) by simp]
        rw [head?_append_left _ _ (jobJoin_ne_nil n1 tl)]
        rw [jobJoin_cons, marker_cons]
        rfl
      · have hpne : pre ≠ [] := by
          intro he
          rw [he] at h0
          simp at h0
        rw [show pre ++ jobJoin (n1 :: tl) ++ bseg ++ sseg =
          pre ++ (jobJoin (n1 :: tl) ++ bseg ++ sseg) by simp]
        rw [head?_append_left _ _ hpne]
        exact h0
    · intro c hc
      rw [hpathR, hcore] at hc
      rcases List.mem_append.mp hc with hc1 | hcs
      rcases List.mem_append.mp hc1 with hc2 | hcb
      rcases List.mem_append.mp hc2 with hcp | hcj
      · exact hpre c hcp
      · rcases mem_jobJoin _ c hcj with hm | ⟨n, hn, hcn⟩
        · have h5 : c ∈ ['/', 'j', 'o', 'b', '/'] := hm
          fin_cases h5 <;> exact ⟨by decide, by decide, by decide, by decide,
            by decide, by decide⟩
        · obtain ⟨_, k2, k3, k4, k5, k6, k7⟩ := (hnames n hn).2 c hcn
          exact ⟨k2, k3, k4, k5, k6, k7⟩
      · rw [hbseg] at hcb
        cases hb : bopt with
        | some d =>
          rw [hb] at hcb
          simp only [buildSeg] at hcb
          rcases List.mem_cons.mp hcb with h1 | h2
          · subst h1; exact ⟨by decide, by decide, by decide, by decide,
              by decide, by decide⟩
          · have hdig : ∀ x ∈ d, x.isDigit = true := by
              rw [hb] at hbuild
              exact hbuild.2
            exact isDigit_clean c (hdig c h2)
        | none =>
          rw [hb] at hcb
          simp only [buildSeg] at hcb
          simp at hcb
      · rw [hsseg] at hcs
        split at hcs
        · rcases List.mem_cons.mp hcs with h1 | h2
          · subst h1; exact ⟨by decide, by decide, by decide, by decide,
              by decide, by decide⟩
          · simp at h2
        · simp at hcs
  unfold extract_job_path
  rw [if_pos hstart]
  dsimp only
  rw [hurl, hrstrip, hstrip]
  dsimp only
  rw [hfind]
  dsimp only
  rw [hsearch]
  dsimp only
  rw [collapse_names tl n1 (hslash n1 (by simp)).2 (fun x hx => hslash x (by simp [hx]))]
  rw [expand_names tl n1 (hslash n1 (by simp)).2 (fun x hx => hslash x (by simp [hx]))]
  rw [take_length_append pre (jobJoin (n1 :: tl))]
  rw [show pre ++ markerL ++ (n1 ++ jobJoin tl) = pre ++ (markerL ++ (n1 ++ jobJoin tl))
    by simp]
  rw [← jobJoin_cons]

/-- C1 (counterexample): "ftp://h/job/a/job/b/42/" is URL-shaped (it starts
with a URL scheme) and its path has the required shape, but the code's URL
test startswith("http") fails, so the bare-path branch returns the whole
input stripped of slashes instead of ("job/a/job/b", 42). -/
theorem c1_cex :
    extract_job_path (strL "ftp://h/job/a/job/b/42/") =
      Except.ok (strL "ftp://h/job/a/job/b/42", none) := by rfl

theorem c1_witness :
    extract_job_path (strL "https://h/job/a/job/b/42/") =
      Except.ok (strL "job/a/job/b", some 42) ∧
    extract_job_path (strL "https://h/team/job/a/") =
      Except.ok (strL "team/job/a", none) := by
  constructor
  · exact c1_thm (strL "s") (strL "h") [] [strL "a", strL "b"] (some (strL "42")) true
      (by decide) (by decide) (by decide) (Or.inl rfl) (by decide) (by decide)
      (by decide) (by decide)
  · exact c1_thm (strL "s") (strL "h") (strL "/team") [strL "a"] none true
      (by decide) (by decide) (by decide) (Or.inr rfl) (by decide) (by decide)
      (by decide) (by decide)

/-! ## Shape of any successful job-regex match -/

theorem pairsGo_shape : ∀ (f : Nat) (s : List Char), ∃ ns,
    (∀ n ∈ ns, n ≠ [] ∧ ∀ c ∈ n, c ≠ '/') ∧ pairsGo f s = jobJoin ns := by
  intro f
  induction f with
  | zero => intro s; exact ⟨[], by simp, rfl⟩
  | succ f ih =>
    intro s
    cases hp : markerL.isPrefixOf s with
    | false => exact ⟨[], by simp, by rw [pairsGo_not_marker f s hp]; rfl⟩
    | true =>
      obtain ⟨x, rfl⟩ : ∃ x, s = markerL ++ x :=
        ⟨s.drop 5, eq_append_of_isPrefixOf markerL s hp⟩
      rw [pairsGo_marker]
      cases x with
      | nil => exact ⟨[], by simp, rfl⟩
      | cons c r =>
        dsimp only
        by_cases hc : c = '/'
        · refine ⟨[], by simp, ?_⟩
          rw [if_pos hc]
          rfl
        · rcases ih ((c :: r).dropWhile fun y => !(y == '/')) with ⟨ns', hns', heq⟩
          refine ⟨((c :: r).takeWhile fun y => !(y == '/')) :: ns', ?_, ?_⟩
          · intro n hn
            rcases List.mem_cons.mp hn with h1 | h2
            · subst h1
              constructor
              · rw [List.takeWhile_cons, if_pos (by simp [hc])]
                simp
              · intro ch hch
                have := mem_of_mem_takeWhile _ _ ch hch
                simpa using this.1
            · exact hns' n h2
          · rw [if_neg hc, heq, jobJoin_cons]
            simp

theorem matchJobAt_shape (s g : List Char) (h : matchJobAt s = some g) :
    ∃ n tl, (n ≠ [] ∧ ∀ c ∈ n, c ≠ '/') ∧
      (∀ x ∈ tl, x ≠ [] ∧ ∀ c ∈ x, c ≠ '/') ∧ g = n ++ jobJoin tl := by
  unfold matchJobAt at h
  by_cases hp : markerL.isPrefixOf s = true
  · rw [if_pos hp] at h
    cases hx : s.drop 5 with
    | nil => rw [hx] at h; simp at h
    | cons c r =>
      rw [hx] at h
      dsimp only at h
      by_cases hc : c = '/'
      · rw [if_pos hc] at h
        simp at h
      · rw [if_neg hc] at h
        simp only [Option.some.injEq] at h
        rcases pairsGo_shape s.length ((c :: r).dropWhile fun y => !(y == '/'))
          with ⟨tl, htl, heq⟩
        refine ⟨(c :: r).takeWhile (fun y => !(y == '/')), tl, ⟨?_, ?_⟩, htl, ?_⟩
        · rw [List.takeWhile_cons, if_pos (by simp [hc])]
          simp
        · intro ch hch
          have := mem_of_mem_takeWhile _ _ ch hch
          simpa using this.1
        · rw [← h, heq]
  · rw [if_neg hp] at h
    simp at h

theorem jobSearch_shape (s : List Char) : ∀ g, jobSearch s = some g →
    ∃ n tl, (n ≠ [] ∧ ∀ c ∈ n, c ≠ '/') ∧
      (∀ x ∈ tl, x ≠ [] ∧ ∀ c ∈ x, c ≠ '/') ∧ g = n ++ jobJoin tl := by
  induction s with
  | nil => intro g h; simp [jobSearch] at h
  | cons c t ih =>
    intro g h
    rw [jobSearch_cons] at h
    cases hm : matchJobAt (c :: t) with
    | some g2 =>
      rw [hm] at h
      simp at h
      subst h
      exact matchJobAt_shape _ _ hm
    | none =>
      rw [hm] at h
      exact ih g h

/-! ## head and last of the stripped results -/

theorem head_lstripSlash (x : List Char) : (lstripSlash x).head? ≠ some '/' := by
  intro he
  have := head_dropWhile_neg (fun c => c == '/') x '/' he
  simp at this

theorem getLast_rstripSlash (x : List Char) : (rstripSlash x).getLast? ≠ some '/' := by
  unfold rstripSlash
  rw [List.getLast?_reverse]
  intro he
  have := head_dropWhile_neg (fun c => c == '/') x.reverse '/' he
  simp at this

theorem getLast_lstripSlash (x : List Char) (hx : x.getLast? ≠ some '/') :
    (lstripSlash x).getLast? ≠ some '/' := by
  rcases dropWhile_is_suffix (fun c => c == '/') x with ⟨t, ht, _⟩
  show (x.dropWhile fun c => c == '/').getLast? ≠ some '/'
  cases hd : x.dropWhile (fun c => c == '/') with
  | nil => simp
  | cons a u =>
    intro he
    apply hx
    rw [ht, hd, getLast?_append_right t (a :: u) (by simp)]
    exact he

theorem lstripSlash_ne_nil (x : List Char) (c : Char) (hc : c ∈ x) (hcs : c ≠ '/') :
    lstripSlash x ≠ [] := by
  intro he
  have := List.dropWhile_eq_nil_iff.mp he c hc
  simp at this
  exact hcs this

/-- C9 (amended): whenever the locator succeeds, the returned job path has
no leading and no trailing slash, and it is non-empty whenever the input was
taken through the URL branch (an input starting with "http"); for a bare
input the path is the slash-stripped input, which may be empty, and the
build number is a natural number that may be 0. -/
theorem c9_thm (s p : List Char) (b : Option Nat)
    (h : extract_job_path s = Except.ok (p, b)) :
    p.head? ≠ some '/' ∧ p.getLast? ≠ some '/' ∧
      ((strL "http").isPrefixOf s = true → p ≠ []) := by
  unfold extract_job_path at h
  by_cases hp : (strL "http").isPrefixOf s = true
  · rw [if_pos hp] at h
    dsimp only at h
    cases hf : findSub (stripBuild (rstripSlash (urlPath s))).1 markerL with
    | none => rw [hf] at h; simp at h
    | some jobStart =>
      rw [hf] at h
      dsimp only at h
      cases hs2 : jobSearch ((stripBuild (rstripSlash (urlPath s))).1.drop jobStart) with
      | none => rw [hs2] at h; simp at h
      | some g =>
        rw [hs2] at h
        dsimp only at h
        simp only [Except.ok.injEq, Prod.mk.injEq] at h
        rcases jobSearch_shape _ g hs2 with ⟨n, tl, ⟨hn1, hn2⟩, htl, rfl⟩
        rw [collapse_names tl n hn2 htl, expand_names tl n hn2 htl] at h
        have hpe : p = lstripSlash ((stripBuild (rstripSlash (urlPath s))).1.take jobStart
            ++ markerL ++ (n ++ jobJoin tl)) := h.1.symm
        subst hpe
        refine ⟨head_lstripSlash _, ?_, fun _ => ?_⟩
        · refine getLast_lstripSlash _ ?_
          rcases getLast_jobJoin tl n hn1 hn2 htl with ⟨c, hc, hcs⟩
          rw [show (stripBuild (rstripSlash (urlPath s))).1.take jobStart
              ++ markerL ++ (n ++ jobJoin tl) =
              ((stripBuild (rstripSlash (urlPath s))).1.take jobStart ++ markerL)
              ++ (n ++ jobJoin tl) by simp]
          rw [getLast?_append_right _ (n ++ jobJoin tl)
            (by intro he; exact hn1 (List.append_eq_nil.mp he).1)]
          rw [hc]
          simp [hcs]
        · refine lstripSlash_ne_nil _ 'j' ?_ (by decide)
          rw [show (stripBuild (rstripSlash (urlPath s))).1.take jobStart
              ++ markerL ++ (n ++ jobJoin tl) =
              (stripBuild (rstripSlash (urlPath s))).1.take jobStart
              ++ (markerL ++ (n ++ jobJoin tl)) by simp]
          refine List.mem_append.mpr (Or.inr ?_)
          refine List.mem_append.mpr (Or.inl ?_)
          decide
  · rw [if_neg hp] at h
    simp only [Except.ok.injEq, Prod.mk.injEq] at h
    have hpe : p = stripSlash s := h.1.symm
    subst hpe
    refine ⟨head_lstripSlash _, ?_, fun hpp => absurd hpp hp⟩
    exact getLast_lstripSlash _ (getLast_rstripSlash s)

/-- C9 (counterexample): the locator can succeed with build number 0
(the claim requires a strictly positive build number) and, on bare input,
with an empty job path (the claim requires a non-empty path). -/
theorem c9_cex :
    extract_job_path (strL "https://h/job/a/0") = Except.ok (strL "job/a", some 0) ∧
    extract_job_path (strL "") = Except.ok ([], none) := ⟨by rfl, by rfl⟩

theorem c9_witness :
    (strL "job/x").head? ≠ some '/' ∧ (strL "job/x").getLast? ≠ some '/' ∧
      ((strL "http").isPrefixOf (strL "https://h/job/x") = true → strL "job/x" ≠ []) :=
  c9_thm (strL "https://h/job/x") (strL "job/x") none (by rfl)
